import Mathlib

/-!
Shallow embedding of the recipe-catalog application (Django/DRF app under
`src/app`): the persistent state (users, tags, ingredients, recipes and their
many-to-many associations) is an explicit `Store`, and the view/serializer
code of `recipe/views.py` and `recipe/serializers.py` is translated into pure
state-passing functions.  Ids are `Nat`, names are `String`, the decimal
price is modelled as an integer number of cents.
-/

/-- A `core.models.Tag` row: primary key, owning user's id, name. -/
structure Tag where
  id : Nat
  user : Nat
  name : String
deriving DecidableEq, Repr

/-- A `core.models.Ingredient` row: same shape as `Tag`. -/
structure Ingredient where
  id : Nat
  user : Nat
  name : String
deriving DecidableEq, Repr

/-- A `core.models.Recipe` row together with its many-to-many association
lists (`tags`, `ingredients` hold ids of `Tag`/`Ingredient` rows). -/
structure Recipe where
  id : Nat
  user : Nat
  title : String
  time_minutes : Int
  price : Int
  link : String
  description : String
  image : Option String
  tags : List Nat
  ingredients : List Nat
deriving DecidableEq, Repr

/-- The relational store: the tables the recipe app reads and writes, plus
the auto-increment counters for the two attribute tables. -/
structure Store where
  tags : List Tag
  ingredients : List Ingredient
  recipes : List Recipe
  nextTagId : Nat
  nextIngredientId : Nat
deriving DecidableEq, Repr

/-- Errors surfaced by the embedded operations: `notFound` is DRF's 404
(raised by `get_object` on an empty lookup) and `multipleObjectsReturned` is
the Django ORM exception raised by `get` (hence by `get_or_create`) when the
lookup matches more than one row. -/
inductive Err where
  | notFound
  | multipleObjectsReturned
deriving DecidableEq, Repr

deriving instance DecidableEq for Except

/-! ### Query/filter layer (`recipe/views.py`) -/

/-- `RecipeViewSet.get_queryset` composed with DRF's `get_object`: the
queryset is filtered to the authenticated user
(`self.queryset.filter(user=self.request.user)`), then the object with the
requested primary key is looked up inside that queryset; an empty lookup is
a 404, here `none`. -/
def recipeGetObject (s : Store) (u : Nat) (rid : Nat) : Option Recipe :=
  (s.recipes.filter (fun r => r.user == u)).find? (fun r => r.id == rid)

/-- Lexicographic comparison of names (on the character lists). -/
def nameLe (a b : String) : Bool :=
  decide (a.data ≤ b.data)

/-- Insert a tag into a list kept in descending name order (the embedding of
the SQL `ORDER BY name DESC` that `.order_by('-name')` requests). -/
def insertByNameDesc (t : Tag) : List Tag → List Tag
  | [] => [t]
  | x :: xs => if nameLe x.name t.name then t :: x :: xs else x :: insertByNameDesc t xs

/-- Sort a tag list by name, descending. -/
def orderByNameDesc (l : List Tag) : List Tag :=
  l.foldr insertByNameDesc []

/-- `BaseRecipeAttrsViewSet.get_queryset` for tags, as the list endpoint
runs it: `self.queryset.filter(user=self.request.user).order_by('-name')`.
The `assigned_only` query parameter arrives with the request but the method
never reads it, so the embedded function ignores its `Bool` argument exactly
as the source does. -/
def listTags (s : Store) (u : Nat) (_assignedOnly : Bool) : List Tag :=
  orderByNameDesc (s.tags.filter (fun t => t.user == u))

/-- A tag is assigned for user `u` iff some recipe owned by `u` has it in its
tag set (the spec's assigned-only filter criterion). -/
def tagAssigned (s : Store) (u : Nat) (t : Tag) : Bool :=
  s.recipes.any (fun r => r.user == u && r.tags.contains t.id)

/-! ### Attribute resolver (`RecipeSerializer._get_or_create_tag` /
`_get_or_create_ingredient`, built on `objects.get_or_create`) -/

/-- `Tag.objects.get_or_create(user=auth_user, name=n)`: `get` on the two
fields returns the unique match, raises `DoesNotExist` on no match (then the
row is created), and raises `MultipleObjectsReturned` on several matches.
Returns the updated store and the resolved tag's id. -/
def getOrCreateTag (s : Store) (u : Nat) (n : String) :
    Store × Except Err Nat :=
  match s.tags.filter (fun t => t.user == u && t.name == n) with
  | [t] => (s, Except.ok t.id)
  | [] =>
      ({ s with
          tags := s.tags ++ [⟨s.nextTagId, u, n⟩],
          nextTagId := s.nextTagId + 1 },
        Except.ok s.nextTagId)
  | _ => (s, Except.error Err.multipleObjectsReturned)

/-- `Ingredient.objects.get_or_create(user=auth_user, name=n)`. -/
def getOrCreateIngredient (s : Store) (u : Nat) (n : String) :
    Store × Except Err Nat :=
  match s.ingredients.filter (fun t => t.user == u && t.name == n) with
  | [t] => (s, Except.ok t.id)
  | [] =>
      ({ s with
          ingredients := s.ingredients ++ [⟨s.nextIngredientId, u, n⟩],
          nextIngredientId := s.nextIngredientId + 1 },
        Except.ok s.nextIngredientId)
  | _ => (s, Except.error Err.multipleObjectsReturned)

/-- `recipe.tags.add(tag_obj)`: the many-to-many `add` attaches the id if it
is not already attached (m2m `add` is idempotent). -/
def addTagToRecipe (s : Store) (rid : Nat) (tid : Nat) : Store :=
  { s with
      recipes := s.recipes.map (fun r =>
        if r.id == rid then
          { r with tags := if tid ∈ r.tags then r.tags else r.tags ++ [tid] }
        else r) }

/-- `recipe.ingredients.add(ingredient_obj)`. -/
def addIngredientToRecipe (s : Store) (rid : Nat) (iid : Nat) : Store :=
  { s with
      recipes := s.recipes.map (fun r =>
        if r.id == rid then
          { r with ingredients :=
              if iid ∈ r.ingredients then r.ingredients
              else r.ingredients ++ [iid] }
        else r) }

/-- `_get_or_create_tag(tags, recipe)`: for each descriptor name, run
`get_or_create` scoped to the authenticated user and attach the resolved tag
to the recipe; an ORM exception aborts the loop, leaving the mutations
already executed in place. -/
def getOrCreateTags (s : Store) (u : Nat) (names : List String) (rid : Nat) :
    Store × Except Err Unit :=
  match names with
  | [] => (s, Except.ok ())
  | n :: rest =>
      match getOrCreateTag s u n with
      | (s1, Except.ok tid) => getOrCreateTags (addTagToRecipe s1 rid tid) u rest rid
      | (s1, Except.error e) => (s1, Except.error e)

/-- `_get_or_create_ingredient(ingredients, recipe)`. -/
def getOrCreateIngredients (s : Store) (u : Nat) (names : List String) (rid : Nat) :
    Store × Except Err Unit :=
  match names with
  | [] => (s, Except.ok ())
  | n :: rest =>
      match getOrCreateIngredient s u n with
      | (s1, Except.ok iid) =>
          getOrCreateIngredients (addIngredientToRecipe s1 rid iid) u rest rid
      | (s1, Except.error e) => (s1, Except.error e)

/-! ### Serializer validation and update (`recipe/serializers.py`) -/

/-- The raw body of a `PATCH`/`PUT` on a recipe: every key is optional
(partial update), and the caller may also supply a `user` key attempting an
ownership change. -/
structure RecipePayload where
  title : Option String
  time_minutes : Option Int
  price : Option Int
  link : Option String
  description : Option String
  user : Option Nat
  tags : Option (List String)
  ingredients : Option (List String)
deriving DecidableEq, Repr

/-- The serializer's validated data: only keys listed in
`RecipeSerializer.Meta.fields` survive. -/
structure ValidatedData where
  title : Option String
  time_minutes : Option Int
  price : Option Int
  link : Option String
  description : Option String
  tags : Option (List String)
  ingredients : Option (List String)
deriving DecidableEq, Repr

/-- `RecipeDetailSerializer` validation of a write payload: the `ModelSerializer`
keeps exactly the keys of `Meta.fields` = `['id', 'title', 'time_minutes',
'price', 'link', 'tags', 'ingredients', 'description']` minus the read-only
`id`; `user` is not in the field list, so a supplied `user` key is dropped
(excluded from the writable set, not merely overwritten back). -/
def runValidation (p : RecipePayload) : ValidatedData :=
  { title := p.title
    time_minutes := p.time_minutes
    price := p.price
    link := p.link
    description := p.description
    tags := p.tags
    ingredients := p.ingredients }

/-- `instance.tags.clear()`. -/
def clearRecipeTags (s : Store) (rid : Nat) : Store :=
  { s with
      recipes := s.recipes.map (fun r =>
        if r.id == rid then { r with tags := [] } else r) }

/-- `instance.ingredients.clear()`. -/
def clearRecipeIngredients (s : Store) (rid : Nat) : Store :=
  { s with
      recipes := s.recipes.map (fun r =>
        if r.id == rid then { r with ingredients := [] } else r) }

/-- The tag block of `RecipeSerializer.update`: `tags =
validated_data.pop('tags', None); if tags is not None: instance.tags.clear();
self._get_or_create_tag(tags, instance)`. -/
def updateTagsPhase (s : Store) (u : Nat) (rid : Nat) :
    Option (List String) → Store × Except Err Unit
  | none => (s, Except.ok ())
  | some names => getOrCreateTags (clearRecipeTags s rid) u names rid

/-- The ingredient block of `RecipeSerializer.update`. -/
def updateIngredientsPhase (s : Store) (u : Nat) (rid : Nat) :
    Option (List String) → Store × Except Err Unit
  | none => (s, Except.ok ())
  | some names => getOrCreateIngredients (clearRecipeIngredients s rid) u names rid

/-- The scalar block of `RecipeSerializer.update`: `for attr, value in
validated_data.items(): setattr(instance, attr, value)` followed by
`instance.save()` — each supplied scalar overwrites the stored one, absent
keys leave the stored value. -/
def applyScalars (s : Store) (rid : Nat) (v : ValidatedData) : Store :=
  { s with
      recipes := s.recipes.map (fun r =>
        if r.id == rid then
          { r with
              title := v.title.getD r.title
              time_minutes := v.time_minutes.getD r.time_minutes
              price := v.price.getD r.price
              link := v.link.getD r.link
              description := v.description.getD r.description }
        else r) }

/-- `RecipeSerializer.update(instance, validated_data)`: tag block, then
ingredient block, then scalar `setattr`s and `save`, returning the instance;
an ORM exception propagates, leaving the mutations already executed in
place (no transaction demarcation surrounds the method). -/
def serializerUpdate (s : Store) (u : Nat) (rid : Nat) (v : ValidatedData) :
    Store × Except Err Recipe :=
  match updateTagsPhase s u rid v.tags with
  | (s1, Except.error e) => (s1, Except.error e)
  | (s1, Except.ok _) =>
      match updateIngredientsPhase s1 u rid v.ingredients with
      | (s2, Except.error e) => (s2, Except.error e)
      | (s2, Except.ok _) =>
          match (applyScalars s2 rid v).recipes.find? (fun r => r.id == rid) with
          | some r => (applyScalars s2 rid v, Except.ok r)
          | none => (applyScalars s2 rid v, Except.error Err.notFound)

/-- `PATCH`/`PUT /recipes/{id}/`: DRF's update action fetches the object
through the owner-filtered queryset (404 when the lookup is empty), runs
validation, and calls `RecipeSerializer.update`. -/
def recipeUpdate (s : Store) (u : Nat) (rid : Nat) (p : RecipePayload) :
    Store × Except Err Recipe :=
  match recipeGetObject s u rid with
  | none => (s, Except.error Err.notFound)
  | some _ => serializerUpdate s u rid (runValidation p)

/-- `GET /recipes/{id}/`: detail retrieval through the owner-filtered
queryset. -/
def recipeDetail (s : Store) (u : Nat) (rid : Nat) : Option Recipe :=
  recipeGetObject s u rid

/-- `DELETE /recipes/{id}/`: object fetched through the owner-filtered
queryset (404 when empty), then deleted. -/
def recipeDelete (s : Store) (u : Nat) (rid : Nat) :
    Store × Except Err Unit :=
  match recipeGetObject s u rid with
  | none => (s, Except.error Err.notFound)
  | some _ =>
      ({ s with recipes := s.recipes.filter (fun r => !(r.id == rid)) },
        Except.ok ())

/-- Remove a recipe row (used to compare an operation's outcome with the
outcome on a store in which the recipe does not exist). -/
def removeRecipeById (s : Store) (rid : Nat) : Store :=
  { s with recipes := s.recipes.filter (fun r => !(r.id == rid)) }

/-! ### Standalone tag endpoints (`BaseRecipeAttrsViewSet` with
`UpdateModelMixin`, `TagSerializer`) -/

/-- `get_object` for `PATCH/DELETE /tags/{id}/`: lookup inside the
owner-filtered queryset. -/
def tagGetObject (s : Store) (u : Nat) (tid : Nat) : Option Tag :=
  (s.tags.filter (fun t => t.user == u)).find? (fun t => t.id == tid)

/-- `PATCH /tags/{id}/` with payload `{name: newName}`: `TagSerializer` has
`fields = ['id', 'name']` with `id` read-only and no uniqueness validation
on `name`, so the update mixin writes the new name unconditionally. -/
def tagPatchName (s : Store) (u : Nat) (tid : Nat) (newName : String) :
    Store × Except Err Tag :=
  match tagGetObject s u tid with
  | none => (s, Except.error Err.notFound)
  | some t =>
      ({ s with
          tags := s.tags.map (fun x =>
            if x.id == tid then { x with name := newName } else x) },
        Except.ok { t with name := newName })

/-! ### Image upload (`RecipeViewSet.upload_image`) -/

/-- A multipart `image` field.  Whether the bytes decode as an image is
decided by an external image library; that external verdict is carried as
the `decodable` flag of the payload. -/
structure ImagePayload where
  data : String
  decodable : Bool
deriving DecidableEq, Repr

/-- Modelled from the spec: `RecipeImageSerializer` is imported by
`recipe/views.py` but its definition is missing from the copy of
`recipe/serializers.py` in src.  Per the spec's interface contract it
validates a multipart `image` field, is valid exactly when the payload is a
decodable image, and on save persists the image reference on the recipe. -/
def imageSerializerIsValid (p : ImagePayload) : Bool :=
  p.decodable

/-- Store the saved image reference on the recipe row. -/
def setRecipeImage (s : Store) (rid : Nat) (ref : String) : Store :=
  { s with
      recipes := s.recipes.map (fun r =>
        if r.id == rid then { r with image := some ref } else r) }

/-- Outcome of `POST /recipes/{id}/upload-image/`: 200 with the image
reference, 400, or 404. -/
inductive UploadResult where
  | ok (image : String)
  | badRequest
  | notFound
deriving DecidableEq, Repr

/-- `RecipeViewSet.upload_image`: `recipe = self.get_object()` (404 through
the owner-filtered queryset), then the image serializer validates the
payload; on success `serializer.save()` stores the reference and the view
returns 200 with the serialized data, otherwise 400 with the errors and no
store mutation. -/
def uploadImage (s : Store) (u : Nat) (rid : Nat) (p : ImagePayload) :
    Store × UploadResult :=
  match recipeGetObject s u rid with
  | none => (s, UploadResult.notFound)
  | some _ =>
      if imageSerializerIsValid p then
        (setRecipeImage s rid p.data, UploadResult.ok p.data)
      else (s, UploadResult.badRequest)

/-! ### Email normalization (user manager) -/

/-- Split a character list at the LAST occurrence of `c`: returns the parts
before and after it, or `none` when `c` does not occur (the behaviour of
Python's `rsplit(c, 1)`). -/
def lastSplitAt (c : Char) : List Char → Option (List Char × List Char)
  | [] => none
  | x :: xs =>
      match lastSplitAt c xs with
      | some (pre, post) => some (x :: pre, post)
      | none => if x = c then some ([], xs) else none

/-- Trim whitespace from both ends (Python's `str.strip()`). -/
def trimChars (l : List Char) : List Char :=
  ((l.dropWhile Char.isWhitespace).reverse.dropWhile Char.isWhitespace).reverse

/-- Modelled from the spec: `core/models.py` (the user manager whose
`create_user` calls `normalize_email`) is not in src; per the spec the
stored email keeps the local part verbatim and lower-cases only the domain.
Following the classic manager: strip the input, split at the last `@`, and
lower-case the part after it; an input with no `@` is returned unchanged. -/
def normalize_email (email : List Char) : List Char :=
  match lastSplitAt '@' (trimChars email) with
  | none => email
  | some (localPart, domainPart) =>
      localPart ++ '@' :: domainPart.map Char.toLower

/-! ### Store invariants and generic transport lemmas -/

/-- Two tag rows do not collide on the (user, name) pair. -/
def tagDistinct (a b : Tag) : Prop :=
  ¬(a.user = b.user ∧ a.name = b.name)

/-- The tag table holds at most one row per (user, name) pair. -/
def uniqueTagPairs (l : List Tag) : Prop :=
  List.Pairwise tagDistinct l

/-- Two ingredient rows do not collide on the (user, name) pair. -/
def ingredientDistinct (a b : Ingredient) : Prop :=
  ¬(a.user = b.user ∧ a.name = b.name)

/-- The ingredient table holds at most one row per (user, name) pair. -/
def uniqueIngredientPairs (l : List Ingredient) : Prop :=
  List.Pairwise ingredientDistinct l

instance : DecidableRel tagDistinct := fun a b => by
  unfold tagDistinct; infer_instance

instance (l : List Tag) : Decidable (uniqueTagPairs l) := by
  unfold uniqueTagPairs; infer_instance

instance : DecidableRel ingredientDistinct := fun a b => by
  unfold ingredientDistinct; infer_instance

instance (l : List Ingredient) : Decidable (uniqueIngredientPairs l) := by
  unfold uniqueIngredientPairs; infer_instance

/-- The stored recipe row with the given id (the first such row). -/
def recAt (s : Store) (rid : Nat) : Option Recipe :=
  s.recipes.find? (fun r => r.id == rid)

/-- A recipe with its tag association forgotten (used to state that an
operation touches nothing but the tag association). -/
def tagsCleared (r : Recipe) : Recipe :=
  { r with tags := [] }

/-- A recipe with its ingredient association forgotten. -/
def ingredientsCleared (r : Recipe) : Recipe :=
  { r with ingredients := [] }

theorem tagDistinct_symm : Symmetric tagDistinct := by
  intro a b h hc
  exact h ⟨hc.1.symm, hc.2.symm⟩

theorem ingredientDistinct_symm : Symmetric ingredientDistinct := by
  intro a b h hc
  exact h ⟨hc.1.symm, hc.2.symm⟩

/-- In a (user, name)-unique table, two rows agreeing on user and name are
the same row. -/
theorem uniqueTagPairs_ext {l : List Tag} (h : uniqueTagPairs l) {a b : Tag}
    (ha : a ∈ l) (hb : b ∈ l) (hu : a.user = b.user) (hn : a.name = b.name) :
    a = b := by
  by_contra hne
  exact (h.forall tagDistinct_symm ha hb hne) ⟨hu, hn⟩

theorem uniqueIngredientPairs_ext {l : List Ingredient}
    (h : uniqueIngredientPairs l) {a b : Ingredient}
    (ha : a ∈ l) (hb : b ∈ l) (hu : a.user = b.user) (hn : a.name = b.name) :
    a = b := by
  by_contra hne
  exact (h.forall ingredientDistinct_symm ha hb hne) ⟨hu, hn⟩

/-- Mapping an element-wise-projection-preserving function over a list
preserves the projected list. -/
theorem map_proj_of_pres {γ : Type} (proj : Recipe → γ) (f : Recipe → Recipe)
    (h : ∀ x, proj (f x) = proj x) (l : List Recipe) :
    (l.map f).map proj = l.map proj := by
  rw [List.map_map]
  exact List.map_congr_left (fun a _ => h a)

/-- `find?` with a predicate that only looks at a projection gives, up to
that projection, the same answer on two lists with equal projections. -/
theorem find?_proj_congr {α : Type} {β : Type} (proj : α → β) (q : β → Bool) :
    ∀ (l1 l2 : List α), l1.map proj = l2.map proj →
      (l1.find? (fun x => q (proj x))).map proj
        = (l2.find? (fun x => q (proj x))).map proj := by
  intro l1
  induction l1 with
  | nil =>
      intro l2 h
      cases l2 with
      | nil => rfl
      | cons b t2 => simp at h
  | cons a t ih =>
      intro l2 h
      cases l2 with
      | nil => simp at h
      | cons b t2 =>
          simp only [List.map_cons, List.cons.injEq] at h
          obtain ⟨hab, ht⟩ := h
          by_cases hq : q (proj a) = true
          · have h1 : List.find? (fun x => q (proj x)) (a :: t) = some a :=
              List.find?_cons_of_pos t hq
            have h2 : List.find? (fun x => q (proj x)) (b :: t2) = some b :=
              List.find?_cons_of_pos t2 (by rw [← hab]; exact hq)
            rw [h1, h2]
            simp [hab]
          · have h1 : List.find? (fun x => q (proj x)) (a :: t)
                = List.find? (fun x => q (proj x)) t :=
              List.find?_cons_of_neg t hq
            have h2 : List.find? (fun x => q (proj x)) (b :: t2)
                = List.find? (fun x => q (proj x)) t2 :=
              List.find?_cons_of_neg t2 (by rw [← hab]; exact hq)
            rw [h1, h2]
            exact ih t2 ht

/-- `find?` commutes with mapping a function that preserves the predicate. -/
theorem find?_map_of_pred_pres {α : Type} (p : α → Bool) (f : α → α)
    (h : ∀ x, p (f x) = p x) (l : List α) :
    (l.map f).find? p = (l.find? p).map f := by
  induction l with
  | nil => rfl
  | cons a t ih =>
      simp only [List.map_cons]
      by_cases hp : p a = true
      · rw [List.find?_cons_of_pos _ (by rw [h]; exact hp),
          List.find?_cons_of_pos _ hp]
        rfl
      · rw [List.find?_cons_of_neg _ (by rw [h]; exact hp),
          List.find?_cons_of_neg _ hp]
        exact ih

/-! ### Behaviour of the attribute resolver -/

theorem getOrCreateTag_recipes (s : Store) (u : Nat) (n : String) :
    (getOrCreateTag s u n).1.recipes = s.recipes := by
  unfold getOrCreateTag
  split <;> rfl

theorem getOrCreateTag_ingredientTable (s : Store) (u : Nat) (n : String) :
    (getOrCreateTag s u n).1.ingredients = s.ingredients := by
  unfold getOrCreateTag
  split <;> rfl

theorem getOrCreateIngredient_recipes (s : Store) (u : Nat) (n : String) :
    (getOrCreateIngredient s u n).1.recipes = s.recipes := by
  unfold getOrCreateIngredient
  split <;> rfl

theorem getOrCreateIngredient_tagTable (s : Store) (u : Nat) (n : String) :
    (getOrCreateIngredient s u n).1.tags = s.tags := by
  unfold getOrCreateIngredient
  split <;> rfl

/-- Under per-(user, name) uniqueness `get_or_create` for tags cannot raise:
it reuses the unique match or creates exactly one row, the table only grows
with rows for this (user, name), uniqueness survives, and the returned id
names a row with this user and name. -/
theorem getOrCreateTag_ok_spec (s : Store) (u : Nat) (n : String)
    (h : uniqueTagPairs s.tags) :
    ∃ sa tid, getOrCreateTag s u n = (sa, Except.ok tid) ∧
      sa.recipes = s.recipes ∧ sa.ingredients = s.ingredients ∧
      (∃ Δ, sa.tags = s.tags ++ Δ ∧ ∀ t ∈ Δ, t.user = u ∧ t.name = n) ∧
      uniqueTagPairs sa.tags ∧
      ∃ t0, t0 ∈ sa.tags ∧ t0.id = tid ∧ t0.user = u ∧ t0.name = n := by
  rcases hf : s.tags.filter (fun t => t.user == u && t.name == n)
    with _ | ⟨t1, _ | ⟨t2, rest⟩⟩
  · have heq : getOrCreateTag s u n =
        ({ s with
            tags := s.tags ++ [⟨s.nextTagId, u, n⟩],
            nextTagId := s.nextTagId + 1 }, Except.ok s.nextTagId) := by
      unfold getOrCreateTag
      rw [hf]
    refine ⟨_, _, heq, rfl, rfl, ⟨[⟨s.nextTagId, u, n⟩], rfl, ?_⟩, ?_,
      ⟨s.nextTagId, u, n⟩, ?_, rfl, rfl, rfl⟩
    · intro t ht
      rw [List.mem_singleton] at ht
      subst ht
      exact ⟨rfl, rfl⟩
    · unfold uniqueTagPairs at h ⊢
      rw [List.pairwise_append]
      refine ⟨h, by simp [tagDistinct], ?_⟩
      intro a ha b hb
      rw [List.mem_singleton] at hb
      subst hb
      have hnp := List.filter_eq_nil_iff.mp hf a ha
      intro hc
      apply hnp
      simp [hc.1, hc.2]
    · simp
  · have hm1 : t1 ∈ s.tags.filter (fun t => t.user == u && t.name == n) := by
      rw [hf]
      simp
    obtain ⟨hmem, hpred⟩ := List.mem_filter.mp hm1
    simp only [Bool.and_eq_true, beq_iff_eq] at hpred
    have heq : getOrCreateTag s u n = (s, Except.ok t1.id) := by
      unfold getOrCreateTag
      rw [hf]
    exact ⟨s, t1.id, heq, rfl, rfl, ⟨[], by simp, by simp⟩, h, t1, hmem, rfl,
      hpred.1, hpred.2⟩
  · exfalso
    have hp : List.Pairwise tagDistinct
        (s.tags.filter (fun t => t.user == u && t.name == n)) :=
      List.Pairwise.sublist (List.filter_sublist _) h
    rw [hf] at hp
    have hrel := List.rel_of_pairwise_cons hp (List.mem_cons_self t2 rest)
    have h1 : t1 ∈ s.tags.filter (fun t => t.user == u && t.name == n) := by
      rw [hf]; simp
    have h2 : t2 ∈ s.tags.filter (fun t => t.user == u && t.name == n) := by
      rw [hf]; simp
    have hp1 := (List.mem_filter.mp h1).2
    have hp2 := (List.mem_filter.mp h2).2
    simp only [Bool.and_eq_true, beq_iff_eq] at hp1 hp2
    exact hrel ⟨hp1.1.trans hp2.1.symm, hp1.2.trans hp2.2.symm⟩

/-- The ingredient counterpart of `getOrCreateTag_ok_spec`. -/
theorem getOrCreateIngredient_ok_spec (s : Store) (u : Nat) (n : String)
    (h : uniqueIngredientPairs s.ingredients) :
    ∃ sa iid, getOrCreateIngredient s u n = (sa, Except.ok iid) ∧
      sa.recipes = s.recipes ∧ sa.tags = s.tags ∧
      (∃ Δ, sa.ingredients = s.ingredients ++ Δ ∧
        ∀ t ∈ Δ, t.user = u ∧ t.name = n) ∧
      uniqueIngredientPairs sa.ingredients ∧
      ∃ t0, t0 ∈ sa.ingredients ∧ t0.id = iid ∧ t0.user = u ∧ t0.name = n := by
  rcases hf : s.ingredients.filter (fun t => t.user == u && t.name == n)
    with _ | ⟨t1, _ | ⟨t2, rest⟩⟩
  · have heq : getOrCreateIngredient s u n =
        ({ s with
            ingredients := s.ingredients ++ [⟨s.nextIngredientId, u, n⟩],
            nextIngredientId := s.nextIngredientId + 1 },
          Except.ok s.nextIngredientId) := by
      unfold getOrCreateIngredient
      rw [hf]
    refine ⟨_, _, heq, rfl, rfl, ⟨[⟨s.nextIngredientId, u, n⟩], rfl, ?_⟩, ?_,
      ⟨s.nextIngredientId, u, n⟩, ?_, rfl, rfl, rfl⟩
    · intro t ht
      rw [List.mem_singleton] at ht
      subst ht
      exact ⟨rfl, rfl⟩
    · unfold uniqueIngredientPairs at h ⊢
      rw [List.pairwise_append]
      refine ⟨h, by simp [ingredientDistinct], ?_⟩
      intro a ha b hb
      rw [List.mem_singleton] at hb
      subst hb
      have hnp := List.filter_eq_nil_iff.mp hf a ha
      intro hc
      apply hnp
      simp [hc.1, hc.2]
    · simp
  · have hm1 : t1 ∈ s.ingredients.filter (fun t => t.user == u && t.name == n) := by
      rw [hf]
      simp
    obtain ⟨hmem, hpred⟩ := List.mem_filter.mp hm1
    simp only [Bool.and_eq_true, beq_iff_eq] at hpred
    have heq : getOrCreateIngredient s u n = (s, Except.ok t1.id) := by
      unfold getOrCreateIngredient
      rw [hf]
    exact ⟨s, t1.id, heq, rfl, rfl, ⟨[], by simp, by simp⟩, h, t1, hmem, rfl,
      hpred.1, hpred.2⟩
  · exfalso
    have hp : List.Pairwise ingredientDistinct
        (s.ingredients.filter (fun t => t.user == u && t.name == n)) :=
      List.Pairwise.sublist (List.filter_sublist _) h
    rw [hf] at hp
    have hrel := List.rel_of_pairwise_cons hp (List.mem_cons_self t2 rest)
    have h1 : t1 ∈ s.ingredients.filter (fun t => t.user == u && t.name == n) := by
      rw [hf]; simp
    have h2 : t2 ∈ s.ingredients.filter (fun t => t.user == u && t.name == n) := by
      rw [hf]; simp
    have hp1 := (List.mem_filter.mp h1).2
    have hp2 := (List.mem_filter.mp h2).2
    simp only [Bool.and_eq_true, beq_iff_eq] at hp1 hp2
    exact hrel ⟨hp1.1.trans hp2.1.symm, hp1.2.trans hp2.2.symm⟩

/-! ### Frame lemmas for the recipe-row updaters -/

theorem addTagToRecipe_tagTable (s : Store) (rid tid : Nat) :
    (addTagToRecipe s rid tid).tags = s.tags := rfl

theorem addTagToRecipe_ingredientTable (s : Store) (rid tid : Nat) :
    (addTagToRecipe s rid tid).ingredients = s.ingredients := rfl

theorem addIngredientToRecipe_tagTable (s : Store) (rid iid : Nat) :
    (addIngredientToRecipe s rid iid).tags = s.tags := rfl

theorem addIngredientToRecipe_ingredientTable (s : Store) (rid iid : Nat) :
    (addIngredientToRecipe s rid iid).ingredients = s.ingredients := rfl

theorem addTagToRecipe_recipes_proj {γ : Type} (proj : Recipe → γ)
    (h : ∀ r l, proj { r with tags := l } = proj r) (s : Store) (rid tid : Nat) :
    (addTagToRecipe s rid tid).recipes.map proj = s.recipes.map proj := by
  apply map_proj_of_pres
  intro x
  by_cases hx : (x.id == rid) = true <;> simp [hx, h]

theorem addIngredientToRecipe_recipes_proj {γ : Type} (proj : Recipe → γ)
    (h : ∀ r l, proj { r with ingredients := l } = proj r)
    (s : Store) (rid iid : Nat) :
    (addIngredientToRecipe s rid iid).recipes.map proj = s.recipes.map proj := by
  apply map_proj_of_pres
  intro x
  by_cases hx : (x.id == rid) = true <;> simp [hx, h]

theorem clearRecipeTags_recipes_proj {γ : Type} (proj : Recipe → γ)
    (h : ∀ r l, proj { r with tags := l } = proj r) (s : Store) (rid : Nat) :
    (clearRecipeTags s rid).recipes.map proj = s.recipes.map proj := by
  apply map_proj_of_pres
  intro x
  by_cases hx : (x.id == rid) = true <;> simp [hx, h]

theorem clearRecipeIngredients_recipes_proj {γ : Type} (proj : Recipe → γ)
    (h : ∀ r l, proj { r with ingredients := l } = proj r) (s : Store) (rid : Nat) :
    (clearRecipeIngredients s rid).recipes.map proj = s.recipes.map proj := by
  apply map_proj_of_pres
  intro x
  by_cases hx : (x.id == rid) = true <;> simp [hx, h]

theorem applyScalars_recipes_proj {γ : Type} (proj : Recipe → γ)
    (h : ∀ r a b c d e, proj { r with
        title := a, time_minutes := b, price := c,
        link := d, description := e } = proj r)
    (s : Store) (rid : Nat) (v : ValidatedData) :
    (applyScalars s rid v).recipes.map proj = s.recipes.map proj := by
  apply map_proj_of_pres
  intro x
  by_cases hx : (x.id == rid) = true <;> simp [hx, h]

/-- `recAt` looks through `addTagToRecipe`. -/
theorem recAt_addTagToRecipe (s : Store) (rid tid : Nat) :
    recAt (addTagToRecipe s rid tid) rid
      = (recAt s rid).map (fun r =>
          if r.id == rid then
            { r with tags := if tid ∈ r.tags then r.tags else r.tags ++ [tid] }
          else r) := by
  unfold recAt addTagToRecipe
  apply find?_map_of_pred_pres
  intro x
  by_cases hx : (x.id == rid) = true <;> simp [hx]

/-- `recAt` looks through `clearRecipeTags`. -/
theorem recAt_clearRecipeTags (s : Store) (rid : Nat) :
    recAt (clearRecipeTags s rid) rid
      = (recAt s rid).map (fun r =>
          if r.id == rid then { r with tags := [] } else r) := by
  unfold recAt clearRecipeTags
  apply find?_map_of_pred_pres
  intro x
  by_cases hx : (x.id == rid) = true <;> simp [hx]

/-- `recAt`, up to a projection `fun r => (r.id, g r)`, is determined by the
same projection of the recipe table. -/
theorem recAt_congr_of_map_eq {δ : Type} (g : Recipe → δ) (s1 s2 : Store)
    (rid : Nat)
    (h : s1.recipes.map (fun r => (r.id, g r)) = s2.recipes.map (fun r => (r.id, g r))) :
    (recAt s1 rid).map (fun r => (r.id, g r))
      = (recAt s2 rid).map (fun r => (r.id, g r)) :=
  find?_proj_congr (fun r => (r.id, g r)) (fun p => p.1 == rid)
    s1.recipes s2.recipes h

/-- Main specification of the tag-attach loop on a success run: the tag
table only grows with rows for the supplied names and stays (user, name)
unique, nothing but the tag associations of recipes changes, and the updated
recipe's tag set is its previous tag set plus exactly the ids of the tag
rows for the supplied names. -/
theorem getOrCreateTags_ok_spec (u rid : Nat) :
    ∀ (names : List String) (s s' : Store),
      uniqueTagPairs s.tags →
      getOrCreateTags s u names rid = (s', Except.ok ()) →
      (∃ Δ, s'.tags = s.tags ++ Δ ∧ ∀ t ∈ Δ, t.user = u ∧ t.name ∈ names) ∧
        uniqueTagPairs s'.tags ∧
        s'.ingredients = s.ingredients ∧
        s'.recipes.map tagsCleared = s.recipes.map tagsCleared ∧
        ∀ r', recAt s' rid = some r' →
          ∃ r0, recAt s rid = some r0 ∧
            ∀ tid, tid ∈ r'.tags ↔
              (tid ∈ r0.tags ∨ ∃ t ∈ s'.tags, t.id = tid ∧ t.user = u ∧ t.name ∈ names) := by
  intro names
  induction names with
  | nil =>
      intro s s' hu hrun
      simp only [getOrCreateTags] at hrun
      have hs : s = s' := congrArg Prod.fst hrun
      subst hs
      refine ⟨⟨[], by simp, by simp⟩, hu, rfl, rfl, ?_⟩
      intro r' hr'
      exact ⟨r', hr', fun tid => by simp⟩
  | cons n rest ih =>
      intro s s' hu hrun
      obtain ⟨sa, tid0, hgc, hrecs, hings, ⟨Δ1, hΔ1, hΔ1m⟩, hua, t0, ht0mem,
        ht0id, ht0u, ht0n⟩ := getOrCreateTag_ok_spec s u n hu
      rw [getOrCreateTags, hgc] at hrun
      have hub : uniqueTagPairs (addTagToRecipe sa rid tid0).tags := hua
      obtain ⟨⟨Δ2, hΔ2, hΔ2m⟩, hus', hings2, hmap2, hchar2⟩ :=
        ih (addTagToRecipe sa rid tid0) s' hub hrun
      have haddtags : (addTagToRecipe sa rid tid0).tags = sa.tags :=
        addTagToRecipe_tagTable sa rid tid0
      refine ⟨⟨Δ1 ++ Δ2, ?_, ?_⟩, hus', ?_, ?_, ?_⟩
      · rw [hΔ2, haddtags, hΔ1, List.append_assoc]
      · intro t ht
        rcases List.mem_append.mp ht with h1 | h2
        · exact ⟨(hΔ1m t h1).1, by rw [(hΔ1m t h1).2]; exact List.mem_cons_self n rest⟩
        · exact ⟨(hΔ2m t h2).1, List.mem_cons_of_mem n (hΔ2m t h2).2⟩
      · rw [hings2, addTagToRecipe_ingredientTable, hings]
      · rw [hmap2, addTagToRecipe_recipes_proj tagsCleared (fun r l => rfl), hrecs]
      · intro r' hr'
        obtain ⟨r_b, hrb, hiff⟩ := hchar2 r' hr'
        rw [recAt_addTagToRecipe] at hrb
        obtain ⟨r_a, hra, hfa⟩ := Option.map_eq_some'.mp hrb
        have hra' : recAt s rid = some r_a := by
          unfold recAt at hra ⊢
          rw [← hrecs]
          exact hra
        have hida : (r_a.id == rid) = true := by
          have := List.find?_some hra
          exact this
        have hfb : r_b =
            { r_a with tags := if tid0 ∈ r_a.tags then r_a.tags else r_a.tags ++ [tid0] } := by
          rw [← hfa, hida]
          simp
        have ht0s' : t0 ∈ s'.tags := by
          rw [hΔ2, haddtags]
          exact List.mem_append_left _ ht0mem
        refine ⟨r_a, hra', ?_⟩
        intro tid
        constructor
        · intro htid
          rcases (hiff tid).mp htid with hb | ⟨t, htmem, htid', htu, htn⟩
          · rw [hfb] at hb
            by_cases hc : tid0 ∈ r_a.tags
            · simp only [hc, if_true] at hb
              exact Or.inl hb
            · simp only [hc, if_false] at hb
              rcases List.mem_append.mp hb with hb1 | hb2
              · exact Or.inl hb1
              · rw [List.mem_singleton] at hb2
                subst hb2
                exact Or.inr ⟨t0, ht0s', ht0id, ht0u, by
                  rw [ht0n]; exact List.mem_cons_self n rest⟩
          · exact Or.inr ⟨t, htmem, htid', htu, List.mem_cons_of_mem n htn⟩
        · intro hdisj
          have hsubb : tid ∈ r_a.tags → tid ∈ r_b.tags := by
            intro hmem
            rw [hfb]
            by_cases hc : tid0 ∈ r_a.tags
            · simp only [hc, if_true]
              exact hmem
            · simp only [hc, if_false]
              exact List.mem_append_left _ hmem
          rcases hdisj with hb | ⟨t, htmem, htid', htu, htn⟩
          · exact (hiff tid).mpr (Or.inl (hsubb hb))
          · rcases List.mem_cons.mp htn with hn | hn
            · have hteq : t = t0 :=
                uniqueTagPairs_ext hus' htmem ht0s' (htu.trans ht0u.symm)
                  (by rw [hn, ht0n])
              have htid0 : tid = tid0 := by
                rw [← htid', hteq, ht0id]
              apply (hiff tid).mpr
              apply Or.inl
              rw [hfb, htid0]
              by_cases hc : tid0 ∈ r_a.tags
              · simp only [hc, if_true]
              · simp only [hc, if_false]
                exact List.mem_append_right _ (by simp)
            · exact (hiff tid).mpr (Or.inr ⟨t, htmem, htid', htu, hn⟩)

/-- `recAt` looks through `addIngredientToRecipe`. -/
theorem recAt_addIngredientToRecipe (s : Store) (rid iid : Nat) :
    recAt (addIngredientToRecipe s rid iid) rid
      = (recAt s rid).map (fun r =>
          if r.id == rid then
            { r with ingredients :=
                if iid ∈ r.ingredients then r.ingredients
                else r.ingredients ++ [iid] }
          else r) := by
  unfold recAt addIngredientToRecipe
  apply find?_map_of_pred_pres
  intro x
  by_cases hx : (x.id == rid) = true <;> simp [hx]

/-- Ingredient counterpart of `getOrCreateTags_ok_spec`. -/
theorem getOrCreateIngredients_ok_spec (u rid : Nat) :
    ∀ (names : List String) (s s' : Store),
      uniqueIngredientPairs s.ingredients →
      getOrCreateIngredients s u names rid = (s', Except.ok ()) →
      (∃ Δ, s'.ingredients = s.ingredients ++ Δ ∧
          ∀ t ∈ Δ, t.user = u ∧ t.name ∈ names) ∧
        uniqueIngredientPairs s'.ingredients ∧
        s'.tags = s.tags ∧
        s'.recipes.map ingredientsCleared = s.recipes.map ingredientsCleared ∧
        ∀ r', recAt s' rid = some r' →
          ∃ r0, recAt s rid = some r0 ∧
            ∀ iid, iid ∈ r'.ingredients ↔
              (iid ∈ r0.ingredients ∨
                ∃ t ∈ s'.ingredients, t.id = iid ∧ t.user = u ∧ t.name ∈ names) := by
  intro names
  induction names with
  | nil =>
      intro s s' hu hrun
      simp only [getOrCreateIngredients] at hrun
      have hs : s = s' := congrArg Prod.fst hrun
      subst hs
      refine ⟨⟨[], by simp, by simp⟩, hu, rfl, rfl, ?_⟩
      intro r' hr'
      exact ⟨r', hr', fun iid => by simp⟩
  | cons n rest ih =>
      intro s s' hu hrun
      obtain ⟨sa, iid0, hgc, hrecs, htags, ⟨Δ1, hΔ1, hΔ1m⟩, hua, t0, ht0mem,
        ht0id, ht0u, ht0n⟩ := getOrCreateIngredient_ok_spec s u n hu
      rw [getOrCreateIngredients, hgc] at hrun
      have hub : uniqueIngredientPairs (addIngredientToRecipe sa rid iid0).ingredients := hua
      obtain ⟨⟨Δ2, hΔ2, hΔ2m⟩, hus', htags2, hmap2, hchar2⟩ :=
        ih (addIngredientToRecipe sa rid iid0) s' hub hrun
      have haddings : (addIngredientToRecipe sa rid iid0).ingredients = sa.ingredients :=
        addIngredientToRecipe_ingredientTable sa rid iid0
      refine ⟨⟨Δ1 ++ Δ2, ?_, ?_⟩, hus', ?_, ?_, ?_⟩
      · rw [hΔ2, haddings, hΔ1, List.append_assoc]
      · intro t ht
        rcases List.mem_append.mp ht with h1 | h2
        · exact ⟨(hΔ1m t h1).1, by rw [(hΔ1m t h1).2]; exact List.mem_cons_self n rest⟩
        · exact ⟨(hΔ2m t h2).1, List.mem_cons_of_mem n (hΔ2m t h2).2⟩
      · rw [htags2, addIngredientToRecipe_tagTable, htags]
      · rw [hmap2, addIngredientToRecipe_recipes_proj ingredientsCleared (fun r l => rfl),
          hrecs]
      · intro r' hr'
        obtain ⟨r_b, hrb, hiff⟩ := hchar2 r' hr'
        rw [recAt_addIngredientToRecipe] at hrb
        obtain ⟨r_a, hra, hfa⟩ := Option.map_eq_some'.mp hrb
        have hra' : recAt s rid = some r_a := by
          unfold recAt at hra ⊢
          rw [← hrecs]
          exact hra
        have hida : (r_a.id == rid) = true := by
          have := List.find?_some hra
          exact this
        have hfb : r_b =
            { r_a with ingredients :=
                if iid0 ∈ r_a.ingredients then r_a.ingredients
                else r_a.ingredients ++ [iid0] } := by
          rw [← hfa, hida]
          simp
        have ht0s' : t0 ∈ s'.ingredients := by
          rw [hΔ2, haddings]
          exact List.mem_append_left _ ht0mem
        refine ⟨r_a, hra', ?_⟩
        intro iid
        constructor
        · intro hiid
          rcases (hiff iid).mp hiid with hb | ⟨t, htmem, htid', htu, htn⟩
          · rw [hfb] at hb
            by_cases hc : iid0 ∈ r_a.ingredients
            · simp only [hc, if_true] at hb
              exact Or.inl hb
            · simp only [hc, if_false] at hb
              rcases List.mem_append.mp hb with hb1 | hb2
              · exact Or.inl hb1
              · rw [List.mem_singleton] at hb2
                subst hb2
                exact Or.inr ⟨t0, ht0s', ht0id, ht0u, by
                  rw [ht0n]; exact List.mem_cons_self n rest⟩
          · exact Or.inr ⟨t, htmem, htid', htu, List.mem_cons_of_mem n htn⟩
        · intro hdisj
          have hsubb : iid ∈ r_a.ingredients → iid ∈ r_b.ingredients := by
            intro hmem
            rw [hfb]
            by_cases hc : iid0 ∈ r_a.ingredients
            · simp only [hc, if_true]
              exact hmem
            · simp only [hc, if_false]
              exact List.mem_append_left _ hmem
          rcases hdisj with hb | ⟨t, htmem, htid', htu, htn⟩
          · exact (hiff iid).mpr (Or.inl (hsubb hb))
          · rcases List.mem_cons.mp htn with hn | hn
            · have hteq : t = t0 :=
                uniqueIngredientPairs_ext hus' htmem ht0s' (htu.trans ht0u.symm)
                  (by rw [hn, ht0n])
              have hiid0 : iid = iid0 := by
                rw [← htid', hteq, ht0id]
              apply (hiff iid).mpr
              apply Or.inl
              rw [hfb, hiid0]
              by_cases hc : iid0 ∈ r_a.ingredients
              · simp only [hc, if_true]
              · simp only [hc, if_false]
                exact List.mem_append_right _ (by simp)
            · exact (hiff iid).mpr (Or.inr ⟨t, htmem, htid', htu, hn⟩)

/-! ### Invariance on every outcome (success or ORM exception) -/

theorem getOrCreateTags_recipes_proj {γ : Type} (proj : Recipe → γ)
    (h : ∀ r l, proj { r with tags := l } = proj r) (u rid : Nat) :
    ∀ (names : List String) (s : Store),
      ((getOrCreateTags s u names rid).1).recipes.map proj = s.recipes.map proj := by
  intro names
  induction names with
  | nil => intro s; rfl
  | cons n rest ih =>
      intro s
      rcases hgc : getOrCreateTag s u n with ⟨sa, ea⟩
      have hrecs : sa.recipes = s.recipes := by
        have hh := getOrCreateTag_recipes s u n
        rw [hgc] at hh
        exact hh
      cases ea with
      | ok tid =>
          rw [getOrCreateTags, hgc]
          rw [ih (addTagToRecipe sa rid tid),
            addTagToRecipe_recipes_proj proj h, hrecs]
      | error e =>
          rw [getOrCreateTags, hgc]
          show sa.recipes.map proj = s.recipes.map proj
          rw [hrecs]

theorem getOrCreateIngredients_recipes_proj {γ : Type} (proj : Recipe → γ)
    (h : ∀ r l, proj { r with ingredients := l } = proj r) (u rid : Nat) :
    ∀ (names : List String) (s : Store),
      ((getOrCreateIngredients s u names rid).1).recipes.map proj = s.recipes.map proj := by
  intro names
  induction names with
  | nil => intro s; rfl
  | cons n rest ih =>
      intro s
      rcases hgc : getOrCreateIngredient s u n with ⟨sa, ea⟩
      have hrecs : sa.recipes = s.recipes := by
        have hh := getOrCreateIngredient_recipes s u n
        rw [hgc] at hh
        exact hh
      cases ea with
      | ok iid =>
          rw [getOrCreateIngredients, hgc]
          rw [ih (addIngredientToRecipe sa rid iid),
            addIngredientToRecipe_recipes_proj proj h, hrecs]
      | error e =>
          rw [getOrCreateIngredients, hgc]
          show sa.recipes.map proj = s.recipes.map proj
          rw [hrecs]

theorem updateTagsPhase_recipes_proj {γ : Type} (proj : Recipe → γ)
    (h : ∀ r l, proj { r with tags := l } = proj r) (s : Store) (u rid : Nat)
    (o : Option (List String)) :
    ((updateTagsPhase s u rid o).1).recipes.map proj = s.recipes.map proj := by
  cases o with
  | none => rfl
  | some names =>
      show ((getOrCreateTags (clearRecipeTags s rid) u names rid).1).recipes.map proj = _
      rw [getOrCreateTags_recipes_proj proj h, clearRecipeTags_recipes_proj proj h]

theorem updateIngredientsPhase_recipes_proj {γ : Type} (proj : Recipe → γ)
    (h : ∀ r l, proj { r with ingredients := l } = proj r) (s : Store) (u rid : Nat)
    (o : Option (List String)) :
    ((updateIngredientsPhase s u rid o).1).recipes.map proj = s.recipes.map proj := by
  cases o with
  | none => rfl
  | some names =>
      show ((getOrCreateIngredients (clearRecipeIngredients s rid) u names rid).1).recipes.map proj = _
      rw [getOrCreateIngredients_recipes_proj proj h,
        clearRecipeIngredients_recipes_proj proj h]

/-- The ingredient loop never touches the tag table, on any outcome. -/
theorem getOrCreateIngredients_tagTable (u rid : Nat) :
    ∀ (names : List String) (s : Store),
      ((getOrCreateIngredients s u names rid).1).tags = s.tags := by
  intro names
  induction names with
  | nil => intro s; rfl
  | cons n rest ih =>
      intro s
      rcases hgc : getOrCreateIngredient s u n with ⟨sa, ea⟩
      have htags : sa.tags = s.tags := by
        have hh := getOrCreateIngredient_tagTable s u n
        rw [hgc] at hh
        exact hh
      cases ea with
      | ok iid =>
          rw [getOrCreateIngredients, hgc]
          rw [ih (addIngredientToRecipe sa rid iid),
            addIngredientToRecipe_tagTable, htags]
      | error e =>
          rw [getOrCreateIngredients, hgc]
          show sa.tags = s.tags
          rw [htags]

theorem updateIngredientsPhase_tagTable (s : Store) (u rid : Nat)
    (o : Option (List String)) :
    ((updateIngredientsPhase s u rid o).1).tags = s.tags := by
  cases o with
  | none => rfl
  | some names =>
      show ((getOrCreateIngredients (clearRecipeIngredients s rid) u names rid).1).tags = _
      rw [getOrCreateIngredients_tagTable]
      rfl

/-- `recAt` looks through `applyScalars`. -/
theorem recAt_applyScalars (s : Store) (rid : Nat) (v : ValidatedData) :
    recAt (applyScalars s rid v) rid
      = (recAt s rid).map (fun r =>
          if r.id == rid then
            { r with
                title := v.title.getD r.title
                time_minutes := v.time_minutes.getD r.time_minutes
                price := v.price.getD r.price
                link := v.link.getD r.link
                description := v.description.getD r.description }
          else r) := by
  unfold recAt applyScalars
  apply find?_map_of_pred_pres
  intro x
  by_cases hx : (x.id == rid) = true <;> simp [hx]

/-- The tag loop never touches the ingredient table, on any outcome. -/
theorem getOrCreateTags_ingredientTable (u rid : Nat) :
    ∀ (names : List String) (s : Store),
      ((getOrCreateTags s u names rid).1).ingredients = s.ingredients := by
  intro names
  induction names with
  | nil => intro s; rfl
  | cons n rest ih =>
      intro s
      rcases hgc : getOrCreateTag s u n with ⟨sa, ea⟩
      have hings : sa.ingredients = s.ingredients := by
        have hh := getOrCreateTag_ingredientTable s u n
        rw [hgc] at hh
        exact hh
      cases ea with
      | ok tid =>
          rw [getOrCreateTags, hgc]
          rw [ih (addTagToRecipe sa rid tid), addTagToRecipe_ingredientTable, hings]
      | error e =>
          rw [getOrCreateTags, hgc]
          show sa.ingredients = s.ingredients
          rw [hings]

theorem updateTagsPhase_ingredientTable (s : Store) (u rid : Nat)
    (o : Option (List String)) :
    ((updateTagsPhase s u rid o).1).ingredients = s.ingredients := by
  cases o with
  | none => rfl
  | some names =>
      show ((getOrCreateTags (clearRecipeTags s rid) u names rid).1).ingredients = _
      rw [getOrCreateTags_ingredientTable]
      rfl

/-! ### C2 and C9: cross-user access through the owner-filtered queryset -/

/-- When the acting user does not own a stored recipe, the owner-filtered
lookup behind `get_object` is empty. -/
theorem recipeGetObject_none_of_other_user (s : Store) (A B : Nat) (r : Recipe)
    (hids : (s.recipes.map Recipe.id).Nodup) (hmem : r ∈ s.recipes)
    (hA : r.user = A) (hne : A ≠ B) :
    recipeGetObject s B r.id = none := by
  unfold recipeGetObject
  rw [List.find?_eq_none]
  intro x hx hpx
  obtain ⟨hxmem, hxu⟩ := List.mem_filter.mp hx
  have hxid : x.id = r.id := by simpa using hpx
  have hxu' : x.user = B := by simpa using hxu
  have hxr : x = r := List.inj_on_of_nodup_map hids hxmem hmem hxid
  apply hne
  rw [← hA, ← hxu', hxr]

/-- C2: for distinct users A and B and a Recipe owned by A, a detail
retrieval, update or delete of that recipe performed by B fails with
NotFound, leaves the store untouched, and is indistinguishable from the
recipe being absent; B never receives the recipe's data. -/
theorem c2_cross_user_access_is_notFound (s : Store) (A B : Nat) (r : Recipe)
    (p : RecipePayload)
    (hids : (s.recipes.map Recipe.id).Nodup) (hmem : r ∈ s.recipes)
    (hA : r.user = A) (hne : A ≠ B) :
    recipeDetail s B r.id = none ∧
    recipeUpdate s B r.id p = (s, Except.error Err.notFound) ∧
    recipeDelete s B r.id = (s, Except.error Err.notFound) ∧
    recipeDetail s B r.id = recipeDetail (removeRecipeById s r.id) B r.id := by
  have hnone := recipeGetObject_none_of_other_user s A B r hids hmem hA hne
  refine ⟨hnone, ?_, ?_, ?_⟩
  · unfold recipeUpdate
    rw [hnone]
  · unfold recipeDelete
    rw [hnone]
  · have hremoved : recipeDetail (removeRecipeById s r.id) B r.id = none := by
      unfold recipeDetail recipeGetObject removeRecipeById
      rw [List.find?_eq_none]
      intro x hx hpx
      obtain ⟨hxmem, _⟩ := List.mem_filter.mp hx
      obtain ⟨_, hxneq⟩ := List.mem_filter.mp hxmem
      rw [hpx] at hxneq
      simp at hxneq
    rw [hremoved]
    exact hnone

def crossStore : Store :=
  { tags := [], ingredients := [],
    recipes := [⟨10, 1, "Sample Title", 22, 550, "http://example.com/recipe.pdf",
      "Sample description", none, [], []⟩],
    nextTagId := 1, nextIngredientId := 1 }

def crossRecipe : Recipe :=
  ⟨10, 1, "Sample Title", 22, 550, "http://example.com/recipe.pdf",
    "Sample description", none, [], []⟩

def crossPayload : RecipePayload :=
  ⟨some "new title", none, none, none, none, none, none, none⟩

theorem c2_cross_user_access_is_notFound_witness :
    ((crossStore.recipes.map Recipe.id).Nodup ∧ crossRecipe ∈ crossStore.recipes ∧
      crossRecipe.user = 1 ∧ (1 : Nat) ≠ 2) ∧
    recipeDetail crossStore 2 10 = none ∧
    recipeUpdate crossStore 2 10 crossPayload = (crossStore, Except.error Err.notFound) ∧
    recipeDelete crossStore 2 10 = (crossStore, Except.error Err.notFound) ∧
    recipeDetail crossStore 2 10 = recipeDetail (removeRecipeById crossStore 10) 2 10 :=
  ⟨⟨by decide, by decide, by decide, by decide⟩,
    c2_cross_user_access_is_notFound crossStore 1 2 crossRecipe crossPayload
      (by decide) (by decide) (by decide) (by decide)⟩

/-- C9: the ownership-mismatch-as-NotFound policy extends to the
image-upload action: invoked by a non-owner it returns NotFound and does not
modify the store, whatever the payload. -/
theorem c9_upload_image_other_user_notFound (s : Store) (A B : Nat)
    (r : Recipe) (p : ImagePayload)
    (hids : (s.recipes.map Recipe.id).Nodup) (hmem : r ∈ s.recipes)
    (hA : r.user = A) (hne : A ≠ B) :
    uploadImage s B r.id p = (s, UploadResult.notFound) := by
  have hnone := recipeGetObject_none_of_other_user s A B r hids hmem hA hne
  unfold uploadImage
  rw [hnone]

theorem c9_upload_image_other_user_notFound_witness :
    ((crossStore.recipes.map Recipe.id).Nodup ∧ crossRecipe ∈ crossStore.recipes ∧
      crossRecipe.user = 1 ∧ (1 : Nat) ≠ 2) ∧
    uploadImage crossStore 2 10 ⟨"photo.jpg", true⟩
      = (crossStore, UploadResult.notFound) :=
  ⟨⟨by decide, by decide, by decide, by decide⟩,
    c9_upload_image_other_user_notFound crossStore 1 2 crossRecipe
      ⟨"photo.jpg", true⟩ (by decide) (by decide) (by decide) (by decide)⟩

/-! ### C1: the assigned-only listing (evaluated on the tests' scenario) -/

/-- The store of `test_filter_Tags_assigned_to_recipes`: user 1 owns tags
Apple and Tomato and one recipe, with only Apple attached to the recipe. -/
def assignedStore : Store :=
  { tags := [⟨1, 1, "Apple"⟩, ⟨2, 1, "Tomato"⟩], ingredients := [],
    recipes := [⟨10, 1, "Sample Title", 100, 599, "", "", none, [1], []⟩],
    nextTagId := 3, nextIngredientId := 1 }

/-- C1: the claim fails on the code.  `BaseRecipeAttrsViewSet.get_queryset`
never reads the `assigned_only` query parameter, so listing tags with
`assigned_only` set still returns the unassigned Tomato tag (which the
repo's own test asserts must be excluded), and the listing is identical
with and without the flag. -/
theorem c1_assigned_only_filter_missing :
    (⟨2, 1, "Tomato"⟩ : Tag) ∈ listTags assignedStore 1 true ∧
    tagAssigned assignedStore 1 ⟨2, 1, "Tomato"⟩ = false ∧
    listTags assignedStore 1 true = listTags assignedStore 1 false ∧
    listTags assignedStore 1 true = [⟨2, 1, "Tomato"⟩, ⟨1, 1, "Apple"⟩] := by
  decide

/-! ### C10: the standalone rename endpoint and per-user name uniqueness -/

/-- The empty store. -/
def emptyStore : Store :=
  { tags := [], ingredients := [], recipes := [],
    nextTagId := 1, nextIngredientId := 1 }

/-- A reachable state: user 1 resolves the names Breakfast and Brunch (the
only way tags are created: the tag endpoints expose no create action), which
creates two tags with distinct names. -/
def twoTagStore : Store :=
  (getOrCreateTag (getOrCreateTag emptyStore 1 "Breakfast").1 1 "Brunch").1

/-- C10: `PATCH /tags/{id}/` performs no per-user name-uniqueness check:
renaming Brunch to Breakfast succeeds and leaves user 1 with two distinct
tag rows named Breakfast, after which descriptor resolution for that name
meets more than one candidate row (`get_or_create` raises
MultipleObjectsReturned). -/
theorem c10_rename_breaks_uniqueness :
    twoTagStore.tags = [⟨1, 1, "Breakfast"⟩, ⟨2, 1, "Brunch"⟩] ∧
    uniqueTagPairs twoTagStore.tags ∧
    (tagPatchName twoTagStore 1 2 "Breakfast").2 = Except.ok ⟨2, 1, "Breakfast"⟩ ∧
    (tagPatchName twoTagStore 1 2 "Breakfast").1.tags
      = [⟨1, 1, "Breakfast"⟩, ⟨2, 1, "Breakfast"⟩] ∧
    ¬ uniqueTagPairs (tagPatchName twoTagStore 1 2 "Breakfast").1.tags ∧
    (getOrCreateTag (tagPatchName twoTagStore 1 2 "Breakfast").1 1 "Breakfast").2
      = Except.error Err.multipleObjectsReturned := by
  decide

/-! ### C6: a failed update leaves a partially written aggregate -/

/-- A unique-named starting state for user 1: tags Lunch, A and B, and a
recipe carrying the Lunch tag. -/
def atomPre : Store :=
  { tags := [⟨1, 1, "Lunch"⟩, ⟨2, 1, "A"⟩, ⟨3, 1, "B"⟩], ingredients := [],
    recipes := [⟨10, 1, "Sample Title", 30, 599, "", "", none, [1], []⟩],
    nextTagId := 4, nextIngredientId := 1 }

/-- The reachable duplicate state: tag B renamed to A through the
uniqueness-free rename endpoint. -/
def atomDup : Store := (tagPatchName atomPre 1 3 "A").1

/-- An update replacing the recipe's tags by X and A. -/
def atomPayload : RecipePayload :=
  ⟨none, none, none, none, none, none, some ["X", "A"], none⟩

/-- C6: the claim fails on the code.  `RecipeSerializer.update` clears the
tag relation and attaches resolved tags one by one with no surrounding
transaction demarcation; when resolving the second descriptor raises
(duplicate rows for (user 1, "A"), reachable per the rename endpoint), the
request errors out while the store retains the half-done write: the
recipe's tag set is the singleton of the freshly created X tag instead of
its original set. -/
theorem c6_failed_update_leaves_partial_state :
    uniqueTagPairs atomPre.tags ∧
    (recipeUpdate atomDup 1 10 atomPayload).2
      = Except.error Err.multipleObjectsReturned ∧
    (recAt atomDup 10).map Recipe.tags = some [1] ∧
    (recAt (recipeUpdate atomDup 1 10 atomPayload).1 10).map Recipe.tags = some [4] ∧
    (recipeUpdate atomDup 1 10 atomPayload).1 ≠ atomDup := by
  decide

/-! ### C8: email normalization -/

theorem lastSplitAt_eq_none (c : Char) :
    ∀ l : List Char, c ∉ l → lastSplitAt c l = none := by
  intro l
  induction l with
  | nil => intro _; rfl
  | cons x xs ih =>
      intro h
      rw [lastSplitAt, ih (fun hmem => h (List.mem_cons_of_mem x hmem))]
      have hx : ¬ x = c := fun he => h (he ▸ List.mem_cons_self x xs)
      simp [hx]

theorem lastSplitAt_append (c : Char) (d : List Char) (hd : c ∉ d) :
    ∀ l : List Char, lastSplitAt c (l ++ c :: d) = some (l, d) := by
  intro l
  induction l with
  | nil =>
      rw [List.nil_append, lastSplitAt, lastSplitAt_eq_none c d hd]
      simp
  | cons x xs ih =>
      rw [List.cons_append, lastSplitAt, ih]

/-- C8: for an input email `local@domain` (no surrounding whitespace, no `@`
inside the domain), the stored email preserves the local part verbatim —
including its letter case — and lower-cases only the domain part. -/
theorem c8_local_part_verbatim_domain_lowercased
    (localPart domainPart : List Char)
    (hat : '@' ∉ domainPart)
    (htrim : trimChars (localPart ++ '@' :: domainPart)
      = localPart ++ '@' :: domainPart) :
    normalize_email (localPart ++ '@' :: domainPart)
      = localPart ++ '@' :: domainPart.map Char.toLower := by
  unfold normalize_email
  rw [htrim, lastSplitAt_append '@' domainPart hat]

theorem c8_local_part_verbatim_domain_lowercased_witness :
    ('@' ∉ "EXAMPLE.com".toList ∧
      trimChars ("Test2".toList ++ '@' :: "EXAMPLE.com".toList)
        = "Test2".toList ++ '@' :: "EXAMPLE.com".toList) ∧
    normalize_email ("Test2".toList ++ '@' :: "EXAMPLE.com".toList)
      = "Test2".toList ++ '@' :: "EXAMPLE.com".toList.map Char.toLower :=
  ⟨⟨by decide, by decide⟩,
    c8_local_part_verbatim_domain_lowercased "Test2".toList "EXAMPLE.com".toList
      (by decide) (by decide)⟩

/-! ### C7: image upload outcomes -/

theorem recipeGetObject_setRecipeImage (s : Store) (u rid : Nat) (ref : String) :
    recipeGetObject (setRecipeImage s rid ref) u rid
      = (recipeGetObject s u rid).map
          (fun r => if r.id == rid then { r with image := some ref } else r) := by
  unfold recipeGetObject setRecipeImage
  rw [List.filter_map]
  have hpred : s.recipes.filter
        ((fun r => r.user == u) ∘
          (fun r => if r.id == rid then { r with image := some ref } else r))
      = s.recipes.filter (fun r => r.user == u) := by
    apply List.filter_congr
    intro x _
    by_cases hx : (x.id == rid) = true <;> simp [hx, Function.comp]
  rw [hpred]
  apply find?_map_of_pred_pres
  intro x
  by_cases hx : (x.id == rid) = true <;> simp [hx]

/-- C7: for a recipe owned by the caller, the upload-image action returns
200 together with the image reference and stores that reference on the
recipe when the payload decodes as an image, and returns 400 leaving the
store — in particular the recipe's stored image — unchanged when it does
not. -/
theorem c7_upload_image_ok_or_badRequest (s : Store) (u rid : Nat)
    (p : ImagePayload) (r : Recipe)
    (hown : recipeGetObject s u rid = some r) :
    (p.decodable = true →
      uploadImage s u rid p = (setRecipeImage s rid p.data, UploadResult.ok p.data) ∧
      recipeGetObject (setRecipeImage s rid p.data) u rid
        = some { r with image := some p.data }) ∧
    (p.decodable = false →
      uploadImage s u rid p = (s, UploadResult.badRequest)) := by
  have hid : r.id = rid := by
    have h := hown
    unfold recipeGetObject at h
    simpa using List.find?_some h
  constructor
  · intro hd
    constructor
    · unfold uploadImage
      rw [hown]
      simp [imageSerializerIsValid, hd]
    · rw [recipeGetObject_setRecipeImage, hown]
      simp [hid]
  · intro hd
    unfold uploadImage
    rw [hown]
    simp [imageSerializerIsValid, hd]

def uploadRecipe : Recipe :=
  ⟨10, 1, "Sample Title", 22, 550, "", "", none, [], []⟩

def uploadStore : Store :=
  { tags := [], ingredients := [], recipes := [uploadRecipe],
    nextTagId := 1, nextIngredientId := 1 }

theorem c7_upload_image_ok_or_badRequest_witness :
    recipeGetObject uploadStore 1 10 = some uploadRecipe ∧
    uploadImage uploadStore 1 10 ⟨"img.jpg", true⟩
      = (setRecipeImage uploadStore 10 "img.jpg", UploadResult.ok "img.jpg") ∧
    uploadImage uploadStore 1 10 ⟨"notanimage", false⟩
      = (uploadStore, UploadResult.badRequest) :=
  ⟨by decide,
    ((c7_upload_image_ok_or_badRequest uploadStore 1 10 ⟨"img.jpg", true⟩
      uploadRecipe (by decide)).1 rfl).1,
    (c7_upload_image_ok_or_badRequest uploadStore 1 10 ⟨"notanimage", false⟩
      uploadRecipe (by decide)).2 rfl⟩

/-! ### C4: descriptor resolution is stable and creates no duplicates -/

/-- C4: starting from a (user, name)-unique table, resolving a name for a
user succeeds; resolving it again — in the same batch or a later call —
returns the same record id with no further state change; an existing record
with that exact name is reused, otherwise exactly one new record scoped to
the user is created; and the table stays (user, name)-unique.  Both for
tags and for ingredients. -/
theorem c4_resolution_idempotent_no_duplicates (s : Store) (u : Nat) (n : String)
    (ht : uniqueTagPairs s.tags) (hi : uniqueIngredientPairs s.ingredients) :
    (∃ s1 tid, getOrCreateTag s u n = (s1, Except.ok tid) ∧
      getOrCreateTag s1 u n = (s1, Except.ok tid) ∧
      uniqueTagPairs s1.tags ∧
      ((∃ t ∈ s.tags, t.user = u ∧ t.name = n ∧ t.id = tid ∧ s1 = s) ∨
        ((∀ t ∈ s.tags, ¬(t.user = u ∧ t.name = n)) ∧
          s1.tags = s.tags ++ [⟨s.nextTagId, u, n⟩] ∧ tid = s.nextTagId))) ∧
    (∃ s1 iid, getOrCreateIngredient s u n = (s1, Except.ok iid) ∧
      getOrCreateIngredient s1 u n = (s1, Except.ok iid) ∧
      uniqueIngredientPairs s1.ingredients ∧
      ((∃ t ∈ s.ingredients, t.user = u ∧ t.name = n ∧ t.id = iid ∧ s1 = s) ∨
        ((∀ t ∈ s.ingredients, ¬(t.user = u ∧ t.name = n)) ∧
          s1.ingredients = s.ingredients ++ [⟨s.nextIngredientId, u, n⟩] ∧
          iid = s.nextIngredientId))) := by
  constructor
  · rcases hf : s.tags.filter (fun t => t.user == u && t.name == n)
      with _ | ⟨t1, _ | ⟨t2, rest⟩⟩
    · have heq : getOrCreateTag s u n =
          ({ s with
              tags := s.tags ++ [⟨s.nextTagId, u, n⟩],
              nextTagId := s.nextTagId + 1 }, Except.ok s.nextTagId) := by
        unfold getOrCreateTag
        rw [hf]
      have hfilter2 : (s.tags ++ [(⟨s.nextTagId, u, n⟩ : Tag)]).filter
          (fun t => t.user == u && t.name == n) = [⟨s.nextTagId, u, n⟩] := by
        rw [List.filter_append, hf]
        simp
      have heq2 : getOrCreateTag
          { s with
              tags := s.tags ++ [⟨s.nextTagId, u, n⟩],
              nextTagId := s.nextTagId + 1 } u n =
          ({ s with
              tags := s.tags ++ [⟨s.nextTagId, u, n⟩],
              nextTagId := s.nextTagId + 1 }, Except.ok s.nextTagId) := by
        unfold getOrCreateTag
        rw [show ({ s with
              tags := s.tags ++ [⟨s.nextTagId, u, n⟩],
              nextTagId := s.nextTagId + 1 } : Store).tags
            = s.tags ++ [⟨s.nextTagId, u, n⟩] from rfl, hfilter2]
      refine ⟨_, _, heq, heq2, ?_, Or.inr ⟨?_, rfl, rfl⟩⟩
      · unfold uniqueTagPairs at ht ⊢
        show List.Pairwise tagDistinct (s.tags ++ [⟨s.nextTagId, u, n⟩])
        rw [List.pairwise_append]
        refine ⟨ht, by simp [tagDistinct], ?_⟩
        intro a ha b hb
        rw [List.mem_singleton] at hb
        subst hb
        have hnp := List.filter_eq_nil_iff.mp hf a ha
        intro hc
        apply hnp
        simp [hc.1, hc.2]
      · intro t htmem hc
        have hnp := List.filter_eq_nil_iff.mp hf t htmem
        apply hnp
        simp [hc.1, hc.2]
    · have hm1 : t1 ∈ s.tags.filter (fun t => t.user == u && t.name == n) := by
        rw [hf]
        simp
      obtain ⟨hmem, hpred⟩ := List.mem_filter.mp hm1
      simp only [Bool.and_eq_true, beq_iff_eq] at hpred
      have heq : getOrCreateTag s u n = (s, Except.ok t1.id) := by
        unfold getOrCreateTag
        rw [hf]
      exact ⟨s, t1.id, heq, heq, ht,
        Or.inl ⟨t1, hmem, hpred.1, hpred.2, rfl, rfl⟩⟩
    · exfalso
      have hp : List.Pairwise tagDistinct
          (s.tags.filter (fun t => t.user == u && t.name == n)) :=
        List.Pairwise.sublist (List.filter_sublist _) ht
      rw [hf] at hp
      have hrel := List.rel_of_pairwise_cons hp (List.mem_cons_self t2 rest)
      have h1 : t1 ∈ s.tags.filter (fun t => t.user == u && t.name == n) := by
        rw [hf]; simp
      have h2 : t2 ∈ s.tags.filter (fun t => t.user == u && t.name == n) := by
        rw [hf]; simp
      have hp1 := (List.mem_filter.mp h1).2
      have hp2 := (List.mem_filter.mp h2).2
      simp only [Bool.and_eq_true, beq_iff_eq] at hp1 hp2
      exact hrel ⟨hp1.1.trans hp2.1.symm, hp1.2.trans hp2.2.symm⟩
  · rcases hf : s.ingredients.filter (fun t => t.user == u && t.name == n)
      with _ | ⟨t1, _ | ⟨t2, rest⟩⟩
    · have heq : getOrCreateIngredient s u n =
          ({ s with
              ingredients := s.ingredients ++ [⟨s.nextIngredientId, u, n⟩],
              nextIngredientId := s.nextIngredientId + 1 },
            Except.ok s.nextIngredientId) := by
        unfold getOrCreateIngredient
        rw [hf]
      have hfilter2 : (s.ingredients ++ [(⟨s.nextIngredientId, u, n⟩ : Ingredient)]).filter
          (fun t => t.user == u && t.name == n) = [⟨s.nextIngredientId, u, n⟩] := by
        rw [List.filter_append, hf]
        simp
      have heq2 : getOrCreateIngredient
          { s with
              ingredients := s.ingredients ++ [⟨s.nextIngredientId, u, n⟩],
              nextIngredientId := s.nextIngredientId + 1 } u n =
          ({ s with
              ingredients := s.ingredients ++ [⟨s.nextIngredientId, u, n⟩],
              nextIngredientId := s.nextIngredientId + 1 },
            Except.ok s.nextIngredientId) := by
        unfold getOrCreateIngredient
        rw [show ({ s with
              ingredients := s.ingredients ++ [⟨s.nextIngredientId, u, n⟩],
              nextIngredientId := s.nextIngredientId + 1 } : Store).ingredients
            = s.ingredients ++ [⟨s.nextIngredientId, u, n⟩] from rfl, hfilter2]
      refine ⟨_, _, heq, heq2, ?_, Or.inr ⟨?_, rfl, rfl⟩⟩
      · unfold uniqueIngredientPairs at hi ⊢
        show List.Pairwise ingredientDistinct
          (s.ingredients ++ [⟨s.nextIngredientId, u, n⟩])
        rw [List.pairwise_append]
        refine ⟨hi, by simp [ingredientDistinct], ?_⟩
        intro a ha b hb
        rw [List.mem_singleton] at hb
        subst hb
        have hnp := List.filter_eq_nil_iff.mp hf a ha
        intro hc
        apply hnp
        simp [hc.1, hc.2]
      · intro t htmem hc
        have hnp := List.filter_eq_nil_iff.mp hf t htmem
        apply hnp
        simp [hc.1, hc.2]
    · have hm1 : t1 ∈ s.ingredients.filter (fun t => t.user == u && t.name == n) := by
        rw [hf]
        simp
      obtain ⟨hmem, hpred⟩ := List.mem_filter.mp hm1
      simp only [Bool.and_eq_true, beq_iff_eq] at hpred
      have heq : getOrCreateIngredient s u n = (s, Except.ok t1.id) := by
        unfold getOrCreateIngredient
        rw [hf]
      exact ⟨s, t1.id, heq, heq, hi,
        Or.inl ⟨t1, hmem, hpred.1, hpred.2, rfl, rfl⟩⟩
    · exfalso
      have hp : List.Pairwise ingredientDistinct
          (s.ingredients.filter (fun t => t.user == u && t.name == n)) :=
        List.Pairwise.sublist (List.filter_sublist _) hi
      rw [hf] at hp
      have hrel := List.rel_of_pairwise_cons hp (List.mem_cons_self t2 rest)
      have h1 : t1 ∈ s.ingredients.filter (fun t => t.user == u && t.name == n) := by
        rw [hf]; simp
      have h2 : t2 ∈ s.ingredients.filter (fun t => t.user == u && t.name == n) := by
        rw [hf]; simp
      have hp1 := (List.mem_filter.mp h1).2
      have hp2 := (List.mem_filter.mp h2).2
      simp only [Bool.and_eq_true, beq_iff_eq] at hp1 hp2
      exact hrel ⟨hp1.1.trans hp2.1.symm, hp1.2.trans hp2.2.symm⟩

def resolveStore : Store :=
  { tags := [⟨1, 1, "Indian"⟩], ingredients := [⟨1, 1, "Lemon"⟩],
    recipes := [], nextTagId := 2, nextIngredientId := 2 }

theorem c4_resolution_idempotent_no_duplicates_witness :
    (uniqueTagPairs resolveStore.tags ∧
      uniqueIngredientPairs resolveStore.ingredients) ∧
    (∃ s1 tid, getOrCreateTag resolveStore 1 "Indian" = (s1, Except.ok tid) ∧
      getOrCreateTag s1 1 "Indian" = (s1, Except.ok tid) ∧
      uniqueTagPairs s1.tags ∧
      ((∃ t ∈ resolveStore.tags, t.user = 1 ∧ t.name = "Indian" ∧ t.id = tid ∧
          s1 = resolveStore) ∨
        ((∀ t ∈ resolveStore.tags, ¬(t.user = 1 ∧ t.name = "Indian")) ∧
          s1.tags = resolveStore.tags ++ [⟨resolveStore.nextTagId, 1, "Indian"⟩] ∧
          tid = resolveStore.nextTagId))) :=
  ⟨⟨by decide, by decide⟩,
    (c4_resolution_idempotent_no_duplicates resolveStore 1 "Indian"
      (by decide) (by decide)).1⟩

/-- Exhaustive case analysis of `RecipeSerializer.update`: it errors out of
the tag block, errors out of the ingredient block, or applies the scalar
block and returns the stored row. -/
theorem serializerUpdate_cases (s : Store) (u rid : Nat) (v : ValidatedData) :
    (∃ s1 e, updateTagsPhase s u rid v.tags = (s1, Except.error e) ∧
      serializerUpdate s u rid v = (s1, Except.error e)) ∨
    (∃ s1 s2 e, updateTagsPhase s u rid v.tags = (s1, Except.ok ()) ∧
      updateIngredientsPhase s1 u rid v.ingredients = (s2, Except.error e) ∧
      serializerUpdate s u rid v = (s2, Except.error e)) ∨
    (∃ s1 s2, updateTagsPhase s u rid v.tags = (s1, Except.ok ()) ∧
      updateIngredientsPhase s1 u rid v.ingredients = (s2, Except.ok ()) ∧
      ((∃ r3, (applyScalars s2 rid v).recipes.find? (fun x => x.id == rid) = some r3 ∧
          serializerUpdate s u rid v = (applyScalars s2 rid v, Except.ok r3)) ∨
        ((applyScalars s2 rid v).recipes.find? (fun x => x.id == rid) = none ∧
          serializerUpdate s u rid v = (applyScalars s2 rid v, Except.error Err.notFound)))) := by
  unfold serializerUpdate
  split
  next s1 e heq =>
    left
    exact ⟨s1, e, heq, rfl⟩
  next s1 val heq =>
    cases val
    split
    next s2 e heq2 =>
      right; left
      exact ⟨s1, s2, e, heq, heq2, rfl⟩
    next s2 val2 heq2 =>
      cases val2
      split
      next r3 h3 =>
        right; right
        exact ⟨s1, s2, heq, heq2, Or.inl ⟨r3, h3, rfl⟩⟩
      next h3 =>
        right; right
        exact ⟨s1, s2, heq, heq2, Or.inr ⟨h3, rfl⟩⟩

/-! ### C3: the owner field is excluded from the writable set -/

/-- C3: whatever the update payload supplies — including a `user` value —
the stored recipe's owner after `PATCH`/`PUT` equals its owner before, while
supplied writable scalars (title, price) are applied on success.  The
`user` key is dropped by validation, never written. -/
theorem c3_update_never_changes_owner (s : Store) (u rid : Nat)
    (p : RecipePayload) (r : Recipe)
    (hr : recAt s rid = some r) :
    (∀ r', recAt (recipeUpdate s u rid p).1 rid = some r' → r'.user = r.user) ∧
    (∀ r'', (recipeUpdate s u rid p).2 = Except.ok r'' →
        r''.user = r.user ∧ r''.title = p.title.getD r.title ∧
        r''.price = p.price.getD r.price) := by
  have huser : ∀ sx : Store,
      sx.recipes.map (fun x => (x.id, x.user)) = s.recipes.map (fun x => (x.id, x.user)) →
      ∀ r', recAt sx rid = some r' → r'.user = r.user := by
    intro sx hmap r' hr'
    have htr := recAt_congr_of_map_eq Recipe.user sx s rid hmap
    rw [hr', hr] at htr
    simp only [Option.map_some', Option.some.injEq, Prod.mk.injEq] at htr
    exact htr.2
  rcases hgo : recipeGetObject s u rid with _ | r0
  · have hru : recipeUpdate s u rid p = (s, Except.error Err.notFound) := by
      unfold recipeUpdate
      rw [hgo]
    rw [hru]
    constructor
    · intro r' hr'
      have hr'' : recAt s rid = some r' := hr'
      rw [Option.some.inj (hr.symm.trans hr'')]
    · intro r'' h
      simp at h
  · have hru : recipeUpdate s u rid p = serializerUpdate s u rid (runValidation p) := by
      unfold recipeUpdate
      rw [hgo]
    rw [hru]
    have hm1 : ∀ s1 e1, updateTagsPhase s u rid (runValidation p).tags = (s1, e1) →
        s1.recipes.map (fun x => (x.id, x.user)) = s.recipes.map (fun x => (x.id, x.user)) := by
      intro s1 e1 h1
      have hh := updateTagsPhase_recipes_proj (fun x => (x.id, x.user))
        (fun r l => rfl) s u rid (runValidation p).tags
      rw [h1] at hh
      exact hh
    have hm2 : ∀ s1 s2 e2, updateIngredientsPhase s1 u rid (runValidation p).ingredients = (s2, e2) →
        s2.recipes.map (fun x => (x.id, x.user)) = s1.recipes.map (fun x => (x.id, x.user)) := by
      intro s1 s2 e2 h2
      have hh := updateIngredientsPhase_recipes_proj (fun x => (x.id, x.user))
        (fun r l => rfl) s1 u rid (runValidation p).ingredients
      rw [h2] at hh
      exact hh
    rcases serializerUpdate_cases s u rid (runValidation p) with
      ⟨s1, e, h1, hs⟩ | ⟨s1, s2, e, h1, h2, hs⟩ | ⟨s1, s2, h1, h2, hrest⟩
    · rw [hs]
      refine ⟨fun r' hr' => huser s1 (hm1 s1 _ h1) r' hr', ?_⟩
      intro r'' h
      simp at h
    · rw [hs]
      refine ⟨fun r' hr' => huser s2 ((hm2 s1 s2 _ h2).trans (hm1 s1 _ h1)) r' hr', ?_⟩
      intro r'' h
      simp at h
    · have m2 : s2.recipes.map (fun x => (x.id, x.user)) = s.recipes.map (fun x => (x.id, x.user)) :=
        (hm2 s1 s2 _ h2).trans (hm1 s1 _ h1)
      have m3 : (applyScalars s2 rid (runValidation p)).recipes.map (fun x => (x.id, x.user))
          = s.recipes.map (fun x => (x.id, x.user)) :=
        (applyScalars_recipes_proj (fun x => (x.id, x.user))
          (fun r a b c d e => rfl) s2 rid (runValidation p)).trans m2
      have m1S : s1.recipes.map (fun x => (x.id, x.user, x.title, x.price))
          = s.recipes.map (fun x => (x.id, x.user, x.title, x.price)) := by
        have hh := updateTagsPhase_recipes_proj (fun x => (x.id, x.user, x.title, x.price))
          (fun r l => rfl) s u rid (runValidation p).tags
        rw [h1] at hh
        exact hh
      have m2S : s2.recipes.map (fun x => (x.id, x.user, x.title, x.price))
          = s.recipes.map (fun x => (x.id, x.user, x.title, x.price)) := by
        have hh := updateIngredientsPhase_recipes_proj (fun x => (x.id, x.user, x.title, x.price))
          (fun r l => rfl) s1 u rid (runValidation p).ingredients
        rw [h2] at hh
        exact hh.trans m1S
      rcases hrest with ⟨r3, h3, hs⟩ | ⟨h3, hs⟩
      · rw [hs]
        constructor
        · intro r' hr'
          exact huser _ m3 r' hr'
        · intro r'' h
          have hr3 : r3 = r'' := Except.ok.inj h
          subst hr3
          have h3' : recAt (applyScalars s2 rid (runValidation p)) rid = some r3 := h3
          have huser3 := huser _ m3 r3 h3'
          rw [recAt_applyScalars] at h3'
          obtain ⟨r2, hr2, hf2⟩ := Option.map_eq_some'.mp h3'
          have hid2 : (r2.id == rid) = true := by
            have hh := hr2
            unfold recAt at hh
            exact List.find?_some (p := fun x : Recipe => x.id == rid) hh
          have hr3eq : r3 =
              { r2 with
                  title := (runValidation p).title.getD r2.title
                  time_minutes := (runValidation p).time_minutes.getD r2.time_minutes
                  price := (runValidation p).price.getD r2.price
                  link := (runValidation p).link.getD r2.link
                  description := (runValidation p).description.getD r2.description } := by
            rw [← hf2, hid2]
            simp
          have htr := recAt_congr_of_map_eq (fun x => (x.user, x.title, x.price)) s2 s rid m2S
          rw [hr, hr2] at htr
          simp only [Option.map_some', Option.some.injEq, Prod.mk.injEq] at htr
          refine ⟨huser3, ?_, ?_⟩
          · rw [hr3eq]
            show (runValidation p).title.getD r2.title = p.title.getD r.title
            rw [htr.2.2.1]
            exact rfl
          · rw [hr3eq]
            show (runValidation p).price.getD r2.price = p.price.getD r.price
            rw [htr.2.2.2]
            exact rfl
      · rw [hs]
        constructor
        · intro r' hr'
          exact huser _ m3 r' hr'
        · intro r'' h
          simp at h

def ownRecipe : Recipe := ⟨10, 1, "Old Title", 30, 550, "l", "d", none, [], []⟩

def ownStore : Store :=
  { tags := [], ingredients := [], recipes := [ownRecipe],
    nextTagId := 1, nextIngredientId := 1 }

/-- A payload that attempts to hand the recipe to user 2 while also
changing title and price. -/
def ownPayload : RecipePayload :=
  ⟨some "New Title", none, some 999, none, none, some 2, none, none⟩

theorem c3_update_never_changes_owner_witness :
    recAt ownStore 10 = some ownRecipe ∧
    (recipeUpdate ownStore 1 10 ownPayload).2
      = Except.ok ⟨10, 1, "New Title", 30, 999, "l", "d", none, [], []⟩ ∧
    (⟨10, 1, "New Title", 30, 999, "l", "d", none, [], []⟩ : Recipe).user
      = ownRecipe.user ∧
    (⟨10, 1, "New Title", 30, 999, "l", "d", none, [], []⟩ : Recipe).title
      = ownPayload.title.getD ownRecipe.title ∧
    (⟨10, 1, "New Title", 30, 999, "l", "d", none, [], []⟩ : Recipe).price
      = ownPayload.price.getD ownRecipe.price :=
  ⟨by decide, by decide,
    (c3_update_never_changes_owner ownStore 1 10 ownPayload ownRecipe
      (by decide)).2 _ (by decide)⟩

/-! ### C5: helper lemmas on `RecipeSerializer.update` -/

/-- `recAt` looks through `clearRecipeIngredients`. -/
theorem recAt_clearRecipeIngredients (s : Store) (rid : Nat) :
    recAt (clearRecipeIngredients s rid) rid
      = (recAt s rid).map (fun r =>
          if r.id == rid then { r with ingredients := [] } else r) := by
  unfold recAt clearRecipeIngredients
  apply find?_map_of_pred_pres
  intro x
  by_cases hx : (x.id == rid) = true <;> simp [hx]

/-- When the `tags` key is absent from the validated data, the stored
recipe's tag set survives `RecipeSerializer.update` unchanged, on any
outcome. -/
theorem serializerUpdate_tags_none (s : Store) (u rid : Nat) (v : ValidatedData)
    (r : Recipe) (hv : v.tags = none) (hr : recAt s rid = some r) :
    ∀ r', recAt (serializerUpdate s u rid v).1 rid = some r' → r'.tags = r.tags := by
  have htagstrans : ∀ sx sy : Store,
      sx.recipes.map (fun x => (x.id, x.tags)) = sy.recipes.map (fun x => (x.id, x.tags)) →
      ∀ a, recAt sx rid = some a → ∀ b, recAt sy rid = some b → a.tags = b.tags := by
    intro sx sy hmap a ha b hb
    have htr := recAt_congr_of_map_eq Recipe.tags sx sy rid hmap
    rw [ha, hb] at htr
    simp only [Option.map_some', Option.some.injEq, Prod.mk.injEq] at htr
    exact htr.2
  intro r' hr'
  rcases serializerUpdate_cases s u rid v with
    ⟨s1, e, h1, hs⟩ | ⟨s1, s2, e, h1, h2, hs⟩ | ⟨s1, s2, h1, h2, hrest⟩
  · rw [hv] at h1
    have h1' : ((s, Except.ok ()) : Store × Except Err Unit) = (s1, Except.error e) := h1
    simp at h1'
  · rw [hv] at h1
    have h1' : ((s, Except.ok ()) : Store × Except Err Unit) = (s1, Except.ok ()) := h1
    have hs1 : s = s1 := congrArg Prod.fst h1'
    rw [hs] at hr'
    have hr'2 : recAt s2 rid = some r' := hr'
    have mI : s2.recipes.map (fun x => (x.id, x.tags)) = s1.recipes.map (fun x => (x.id, x.tags)) := by
      have hh := updateIngredientsPhase_recipes_proj (fun x => (x.id, x.tags))
        (fun r l => rfl) s1 u rid v.ingredients
      rw [h2] at hh
      exact hh
    exact htagstrans s2 s (mI.trans (by rw [← hs1])) r' hr'2 r hr
  · rw [hv] at h1
    have h1' : ((s, Except.ok ()) : Store × Except Err Unit) = (s1, Except.ok ()) := h1
    have hs1 : s = s1 := congrArg Prod.fst h1'
    have mI : s2.recipes.map (fun x => (x.id, x.tags)) = s1.recipes.map (fun x => (x.id, x.tags)) := by
      have hh := updateIngredientsPhase_recipes_proj (fun x => (x.id, x.tags))
        (fun r l => rfl) s1 u rid v.ingredients
      rw [h2] at hh
      exact hh
    have mF : (applyScalars s2 rid v).recipes.map (fun x => (x.id, x.tags))
        = s.recipes.map (fun x => (x.id, x.tags)) :=
      ((applyScalars_recipes_proj (fun x => (x.id, x.tags))
        (fun r a b c d e => rfl) s2 rid v).trans mI).trans (by rw [← hs1])
    rcases hrest with ⟨r3, h3, hs⟩ | ⟨h3, hs⟩
    · rw [hs] at hr'
      have hr'2 : recAt (applyScalars s2 rid v) rid = some r' := hr'
      exact htagstrans _ s mF r' hr'2 r hr
    · rw [hs] at hr'
      have hr'2 : recAt (applyScalars s2 rid v) rid = some r' := hr'
      exact htagstrans _ s mF r' hr'2 r hr

/-- When the `tags` key is supplied, a successful `RecipeSerializer.update`
leaves the recipe's tag set exactly the ids of the final tag table's rows
owned by the acting user whose name is among the supplied names. -/
theorem serializerUpdate_tags_some (s : Store) (u rid : Nat) (v : ValidatedData)
    (r : Recipe) (names : List String) (hv : v.tags = some names)
    (hut : uniqueTagPairs s.tags) (hr : recAt s rid = some r) :
    ∀ r'', (serializerUpdate s u rid v).2 = Except.ok r'' →
      ∀ tid, tid ∈ r''.tags ↔
        ∃ t ∈ (serializerUpdate s u rid v).1.tags,
          t.id = tid ∧ t.user = u ∧ t.name ∈ names := by
  intro r'' hok tid
  have hidr : (r.id == rid) = true := by
    have hh := hr
    unfold recAt at hh
    exact List.find?_some (p := fun x : Recipe => x.id == rid) hh
  rcases serializerUpdate_cases s u rid v with
    ⟨s1, e, h1, hs⟩ | ⟨s1, s2, e, h1, h2, hs⟩ | ⟨s1, s2, h1, h2, hrest⟩
  · rw [hs] at hok
    simp at hok
  · rw [hs] at hok
    simp at hok
  · rcases hrest with ⟨r3, h3, hs⟩ | ⟨h3, hs⟩
    · rw [hs] at hok
      have hr3 : r3 = r'' := Except.ok.inj hok
      subst hr3
      rw [hs]
      show tid ∈ r3.tags ↔
        ∃ t ∈ (applyScalars s2 rid v).tags, t.id = tid ∧ t.user = u ∧ t.name ∈ names
      rw [hv] at h1
      have h1' : getOrCreateTags (clearRecipeTags s rid) u names rid
          = (s1, Except.ok ()) := h1
      have hucl : uniqueTagPairs (clearRecipeTags s rid).tags := hut
      obtain ⟨-, hus1, -, hmapT, hchar⟩ :=
        getOrCreateTags_ok_spec u rid names (clearRecipeTags s rid) s1 hucl h1'
      have hidr' : r.id = rid := by simpa using hidr
      have hclr : recAt (clearRecipeTags s rid) rid = some { r with tags := [] } := by
        rw [recAt_clearRecipeTags, hr]
        simp [hidr']
      have hfind' : (recAt s1 rid).map tagsCleared
          = (recAt (clearRecipeTags s rid) rid).map tagsCleared :=
        find?_proj_congr tagsCleared (fun y => y.id == rid) s1.recipes
          (clearRecipeTags s rid).recipes hmapT
      rw [hclr] at hfind'
      obtain ⟨r1, hr1, -⟩ := Option.map_eq_some'.mp hfind'
      obtain ⟨r0, hr0, hiff⟩ := hchar r1 hr1
      rw [hclr] at hr0
      have hr0e : ({ r with tags := ([] : List Nat) } : Recipe) = r0 :=
        Option.some.inj hr0
      have mI : s2.recipes.map (fun x => (x.id, x.tags))
          = s1.recipes.map (fun x => (x.id, x.tags)) := by
        have hh := updateIngredientsPhase_recipes_proj (fun x => (x.id, x.tags))
          (fun r l => rfl) s1 u rid v.ingredients
        rw [h2] at hh
        exact hh
      have mF : (applyScalars s2 rid v).recipes.map (fun x => (x.id, x.tags))
          = s1.recipes.map (fun x => (x.id, x.tags)) :=
        (applyScalars_recipes_proj (fun x => (x.id, x.tags))
          (fun r a b c d e => rfl) s2 rid v).trans mI
      have htrF := recAt_congr_of_map_eq Recipe.tags (applyScalars s2 rid v) s1 rid mF
      have h3' : recAt (applyScalars s2 rid v) rid = some r3 := h3
      rw [h3', hr1] at htrF
      simp only [Option.map_some', Option.some.injEq, Prod.mk.injEq] at htrF
      have htab : (applyScalars s2 rid v).tags = s1.tags := by
        show s2.tags = s1.tags
        have hh := updateIngredientsPhase_tagTable s1 u rid v.ingredients
        rw [h2] at hh
        exact hh
      rw [htab, htrF.2, hiff tid]
      constructor
      · rintro (hmem | hex)
        · rw [← hr0e] at hmem
          simp at hmem
        · exact hex
      · exact Or.inr
    · rw [hs] at hok
      simp at hok

/-- When the `ingredients` key is absent from the validated data, the stored
recipe's ingredient set survives `RecipeSerializer.update` unchanged, on any
outcome. -/
theorem serializerUpdate_ingredients_none (s : Store) (u rid : Nat)
    (v : ValidatedData) (r : Recipe) (hv : v.ingredients = none)
    (hr : recAt s rid = some r) :
    ∀ r', recAt (serializerUpdate s u rid v).1 rid = some r' →
      r'.ingredients = r.ingredients := by
  have hingtrans : ∀ sx sy : Store,
      sx.recipes.map (fun x => (x.id, x.ingredients))
        = sy.recipes.map (fun x => (x.id, x.ingredients)) →
      ∀ a, recAt sx rid = some a → ∀ b, recAt sy rid = some b →
        a.ingredients = b.ingredients := by
    intro sx sy hmap a ha b hb
    have htr := recAt_congr_of_map_eq Recipe.ingredients sx sy rid hmap
    rw [ha, hb] at htr
    simp only [Option.map_some', Option.some.injEq, Prod.mk.injEq] at htr
    exact htr.2
  intro r' hr'
  rcases serializerUpdate_cases s u rid v with
    ⟨s1, e, h1, hs⟩ | ⟨s1, s2, e, h1, h2, hs⟩ | ⟨s1, s2, h1, h2, hrest⟩
  · have m1 : s1.recipes.map (fun x => (x.id, x.ingredients))
        = s.recipes.map (fun x => (x.id, x.ingredients)) := by
      have hh := updateTagsPhase_recipes_proj (fun x => (x.id, x.ingredients))
        (fun r l => rfl) s u rid v.tags
      rw [h1] at hh
      exact hh
    rw [hs] at hr'
    have hr'2 : recAt s1 rid = some r' := hr'
    exact hingtrans s1 s m1 r' hr'2 r hr
  · rw [hv] at h2
    have h2' : ((s1, Except.ok ()) : Store × Except Err Unit) = (s2, Except.error e) := h2
    simp at h2'
  · have m1 : s1.recipes.map (fun x => (x.id, x.ingredients))
        = s.recipes.map (fun x => (x.id, x.ingredients)) := by
      have hh := updateTagsPhase_recipes_proj (fun x => (x.id, x.ingredients))
        (fun r l => rfl) s u rid v.tags
      rw [h1] at hh
      exact hh
    rw [hv] at h2
    have h2' : ((s1, Except.ok ()) : Store × Except Err Unit) = (s2, Except.ok ()) := h2
    have hs2 : s1 = s2 := congrArg Prod.fst h2'
    have mF : (applyScalars s2 rid v).recipes.map (fun x => (x.id, x.ingredients))
        = s.recipes.map (fun x => (x.id, x.ingredients)) :=
      (applyScalars_recipes_proj (fun x => (x.id, x.ingredients))
        (fun r a b c d e => rfl) s2 rid v).trans ((hs2 ▸ m1 : _))
    rcases hrest with ⟨r3, h3, hs⟩ | ⟨h3, hs⟩
    · rw [hs] at hr'
      have hr'2 : recAt (applyScalars s2 rid v) rid = some r' := hr'
      exact hingtrans _ s mF r' hr'2 r hr
    · rw [hs] at hr'
      have hr'2 : recAt (applyScalars s2 rid v) rid = some r' := hr'
      exact hingtrans _ s mF r' hr'2 r hr

/-- When the `ingredients` key is supplied, a successful
`RecipeSerializer.update` leaves the recipe's ingredient set exactly the ids
of the final ingredient table's rows owned by the acting user whose name is
among the supplied names. -/
theorem serializerUpdate_ingredients_some (s : Store) (u rid : Nat)
    (v : ValidatedData) (r : Recipe) (names : List String)
    (hv : v.ingredients = some names)
    (hui : uniqueIngredientPairs s.ingredients) (hr : recAt s rid = some r) :
    ∀ r'', (serializerUpdate s u rid v).2 = Except.ok r'' →
      ∀ iid, iid ∈ r''.ingredients ↔
        ∃ t ∈ (serializerUpdate s u rid v).1.ingredients,
          t.id = iid ∧ t.user = u ∧ t.name ∈ names := by
  intro r'' hok iid
  rcases serializerUpdate_cases s u rid v with
    ⟨s1, e, h1, hs⟩ | ⟨s1, s2, e, h1, h2, hs⟩ | ⟨s1, s2, h1, h2, hrest⟩
  · rw [hs] at hok
    simp at hok
  · rw [hs] at hok
    simp at hok
  · rcases hrest with ⟨r3, h3, hs⟩ | ⟨h3, hs⟩
    · rw [hs] at hok
      have hr3 : r3 = r'' := Except.ok.inj hok
      subst hr3
      rw [hs]
      show iid ∈ r3.ingredients ↔
        ∃ t ∈ (applyScalars s2 rid v).ingredients,
          t.id = iid ∧ t.user = u ∧ t.name ∈ names
      -- the tag phase preserves the ingredient table and its uniqueness
      have hs1i : s1.ingredients = s.ingredients := by
        have hh := updateTagsPhase_ingredientTable s u rid v.tags
        rw [h1] at hh
        exact hh
      have hui1 : uniqueIngredientPairs (clearRecipeIngredients s1 rid).ingredients := by
        show uniqueIngredientPairs s1.ingredients
        rw [hs1i]
        exact hui
      rw [hv] at h2
      have h2' : getOrCreateIngredients (clearRecipeIngredients s1 rid) u names rid
          = (s2, Except.ok ()) := h2
      obtain ⟨-, hus2, -, hmapI, hcharI⟩ :=
        getOrCreateIngredients_ok_spec u rid names (clearRecipeIngredients s1 rid)
          s2 hui1 h2'
      -- locate the recipe row after the tag phase
      have m1u : s1.recipes.map (fun x => (x.id, x.user))
          = s.recipes.map (fun x => (x.id, x.user)) := by
        have hh := updateTagsPhase_recipes_proj (fun x => (x.id, x.user))
          (fun r l => rfl) s u rid v.tags
        rw [h1] at hh
        exact hh
      have htr1 := recAt_congr_of_map_eq Recipe.user s1 s rid m1u
      rw [hr] at htr1
      obtain ⟨r1, hr1, -⟩ := Option.map_eq_some'.mp htr1
      have hidr1 : r1.id = rid := by
        have hh := hr1
        unfold recAt at hh
        simpa using List.find?_some (p := fun x : Recipe => x.id == rid) hh
      have hclr : recAt (clearRecipeIngredients s1 rid) rid
          = some { r1 with ingredients := [] } := by
        rw [recAt_clearRecipeIngredients, hr1]
        simp [hidr1]
      -- locate the row after the ingredient phase
      have hfind' : (recAt s2 rid).map ingredientsCleared
          = (recAt (clearRecipeIngredients s1 rid) rid).map ingredientsCleared :=
        find?_proj_congr ingredientsCleared (fun y => y.id == rid) s2.recipes
          (clearRecipeIngredients s1 rid).recipes hmapI
      rw [hclr] at hfind'
      obtain ⟨r2x, hr2x, -⟩ := Option.map_eq_some'.mp hfind'
      obtain ⟨r0, hr0, hiff⟩ := hcharI r2x hr2x
      rw [hclr] at hr0
      have hr0e : ({ r1 with ingredients := ([] : List Nat) } : Recipe) = r0 :=
        Option.some.inj hr0
      -- the scalar phase preserves (id, ingredients)
      have mF : (applyScalars s2 rid v).recipes.map (fun x => (x.id, x.ingredients))
          = s2.recipes.map (fun x => (x.id, x.ingredients)) :=
        applyScalars_recipes_proj (fun x => (x.id, x.ingredients))
          (fun r a b c d e => rfl) s2 rid v
      have htrF := recAt_congr_of_map_eq Recipe.ingredients
        (applyScalars s2 rid v) s2 rid mF
      have h3' : recAt (applyScalars s2 rid v) rid = some r3 := h3
      rw [h3', hr2x] at htrF
      simp only [Option.map_some', Option.some.injEq, Prod.mk.injEq] at htrF
      have htab : (applyScalars s2 rid v).ingredients = s2.ingredients := rfl
      rw [htab, htrF.2, hiff iid]
      constructor
      · rintro (hmem | hex)
        · rw [← hr0e] at hmem
          simp at hmem
        · exact hex
      · exact Or.inr
    · rw [hs] at hok
      simp at hok

/-- C5: for every recipe update, a supplied `tags` (resp. `ingredients`)
key — including an empty list — fully replaces the recipe's tag (resp.
ingredient) set with exactly the records resolved from the supplied names
(an empty list clears the set), while a key that is entirely absent leaves
the prior set unchanged. -/
theorem c5_supplied_keys_replace_absent_keys_preserve (s : Store) (u rid : Nat)
    (p : RecipePayload) (r : Recipe)
    (hut : uniqueTagPairs s.tags) (hui : uniqueIngredientPairs s.ingredients)
    (hr : recAt s rid = some r) :
    (p.tags = none →
      ∀ r', recAt (recipeUpdate s u rid p).1 rid = some r' → r'.tags = r.tags) ∧
    (∀ names, p.tags = some names →
      ∀ r'', (recipeUpdate s u rid p).2 = Except.ok r'' →
        ∀ tid, tid ∈ r''.tags ↔
          ∃ t ∈ (recipeUpdate s u rid p).1.tags,
            t.id = tid ∧ t.user = u ∧ t.name ∈ names) ∧
    (p.tags = some [] →
      ∀ r'', (recipeUpdate s u rid p).2 = Except.ok r'' → r''.tags = []) ∧
    (p.ingredients = none →
      ∀ r', recAt (recipeUpdate s u rid p).1 rid = some r' →
        r'.ingredients = r.ingredients) ∧
    (∀ names, p.ingredients = some names →
      ∀ r'', (recipeUpdate s u rid p).2 = Except.ok r'' →
        ∀ iid, iid ∈ r''.ingredients ↔
          ∃ t ∈ (recipeUpdate s u rid p).1.ingredients,
            t.id = iid ∧ t.user = u ∧ t.name ∈ names) ∧
    (p.ingredients = some [] →
      ∀ r'', (recipeUpdate s u rid p).2 = Except.ok r'' → r''.ingredients = []) := by
  rcases hgo : recipeGetObject s u rid with _ | r0
  · have hru : recipeUpdate s u rid p = (s, Except.error Err.notFound) := by
      unfold recipeUpdate
      rw [hgo]
    rw [hru]
    refine ⟨?_, ?_, ?_, ?_, ?_, ?_⟩
    · intro _ r' hr'
      have hr'2 : recAt s rid = some r' := hr'
      rw [Option.some.inj (hr.symm.trans hr'2)]
    · intro names _ r'' h
      simp at h
    · intro _ r'' h
      simp at h
    · intro _ r' hr'
      have hr'2 : recAt s rid = some r' := hr'
      rw [Option.some.inj (hr.symm.trans hr'2)]
    · intro names _ r'' h
      simp at h
    · intro _ r'' h
      simp at h
  · have hru : recipeUpdate s u rid p = serializerUpdate s u rid (runValidation p) := by
      unfold recipeUpdate
      rw [hgo]
    rw [hru]
    have main2 : ∀ names, p.tags = some names →
        ∀ r'', (serializerUpdate s u rid (runValidation p)).2 = Except.ok r'' →
          ∀ tid, tid ∈ r''.tags ↔
            ∃ t ∈ (serializerUpdate s u rid (runValidation p)).1.tags,
              t.id = tid ∧ t.user = u ∧ t.name ∈ names := by
      intro names hpt
      exact serializerUpdate_tags_some s u rid (runValidation p) r names hpt hut hr
    have main5 : ∀ names, p.ingredients = some names →
        ∀ r'', (serializerUpdate s u rid (runValidation p)).2 = Except.ok r'' →
          ∀ iid, iid ∈ r''.ingredients ↔
            ∃ t ∈ (serializerUpdate s u rid (runValidation p)).1.ingredients,
              t.id = iid ∧ t.user = u ∧ t.name ∈ names := by
      intro names hpi
      exact serializerUpdate_ingredients_some s u rid (runValidation p) r names hpi hui hr
    refine ⟨?_, main2, ?_, ?_, main5, ?_⟩
    · intro hpt
      exact serializerUpdate_tags_none s u rid (runValidation p) r hpt hr
    · intro hpt r'' h
      have hiff := main2 [] hpt r'' h
      rw [List.eq_nil_iff_forall_not_mem]
      intro a ha
      obtain ⟨t, ht, -, -, hnm⟩ := (hiff a).mp ha
      simp at hnm
    · intro hpi
      exact serializerUpdate_ingredients_none s u rid (runValidation p) r hpi hr
    · intro hpi r'' h
      have hiff := main5 [] hpi r'' h
      rw [List.eq_nil_iff_forall_not_mem]
      intro a ha
      obtain ⟨t, ht, -, -, hnm⟩ := (hiff a).mp ha
      simp at hnm

def replRecipe : Recipe := ⟨10, 1, "T", 30, 550, "", "", none, [1], [1]⟩

def replStore : Store :=
  { tags := [⟨1, 1, "Lunch"⟩], ingredients := [⟨1, 1, "Salt"⟩],
    recipes := [replRecipe], nextTagId := 2, nextIngredientId := 2 }

def replPayload : RecipePayload :=
  ⟨none, none, none, none, none, none, some ["Dinner"], none⟩

theorem c5_supplied_keys_replace_absent_keys_preserve_witness :
    (uniqueTagPairs replStore.tags ∧ uniqueIngredientPairs replStore.ingredients ∧
      recAt replStore 10 = some replRecipe) ∧
    (recipeUpdate replStore 1 10 replPayload).2
      = Except.ok ⟨10, 1, "T", 30, 550, "", "", none, [2], [1]⟩ ∧
    (∀ tid, tid ∈ (⟨10, 1, "T", 30, 550, "", "", none, [2], [1]⟩ : Recipe).tags ↔
      ∃ t ∈ (recipeUpdate replStore 1 10 replPayload).1.tags,
        t.id = tid ∧ t.user = 1 ∧ t.name ∈ ["Dinner"]) :=
  ⟨⟨by decide, by decide, by decide⟩, by decide,
    (c5_supplied_keys_replace_absent_keys_preserve replStore 1 10 replPayload
      replRecipe (by decide) (by decide) (by decide)).2.1 ["Dinner"] rfl
      ⟨10, 1, "T", 30, 550, "", "", none, [2], [1]⟩ (by decide)⟩
